import Mathlib

/-!
Verification of the video-tree builder's tree store, layout engine and
connector-curve engine, shallowly embedded from
`src/unnamed/part_000` (component `VideoTreeBuilder`).

Embedding conventions:
* JavaScript numbers are modelled as rationals (`ℚ`); every arithmetic
  operation performed by the embedded code (addition, subtraction,
  multiplication, division by small constants) is exact on the values that
  arise, and the literal `0.6` is written as the rational `3/5`.
* Node identifiers: the source uses the string `"root"` for the root and
  the template string `node-${Date.now()}` for created nodes.  We embed
  the identifier space as an inductive type with constructors `root` and
  `node t` (`t` the millisecond timestamp `Date.now()` returned); two
  generated identifiers collide exactly when their timestamps are equal,
  matching string equality of the templates.  `Date.now()` itself is an
  ambient input, so operations that generate an id take the timestamp as
  an explicit argument.
* The React state `Record<string, VideoNode>` is embedded as an
  association list.  The object spread `{...m, [k]: v}` keeps the
  position of an existing key and appends a fresh key at the end, which
  is exactly what `setNode` below does.
-/

inductive NodeId where
  | root : NodeId
  | node (t : Nat) : NodeId
deriving DecidableEq, Repr

structure VideoNode where
  id : NodeId
  videoUrl : Option String
  x : ℚ
  y : ℚ
  color : String
  parentId : Option NodeId
  children : List NodeId
  level : Nat
deriving DecidableEq, Repr

/-- The fixed palette `COLORS` of the source. -/
def COLORS : List String :=
  ["#9b87f5", "#D946EF", "#F97316", "#0EA5E9", "#8B5CF6", "#EC4899", "#14B8A6", "#F59E0B"]

def LEVEL_HEIGHT : ℚ := 220

def NODE_SPACING : ℚ := 200

abbrev NodeMap := List (NodeId × VideoNode)

/-- Lookup `m[k]` on the embedded record. -/
def getNode : NodeMap → NodeId → Option VideoNode
  | [], _ => none
  | (k', v) :: rest, k => if k' = k then some v else getNode rest k

/-- The object spread `{...m, [k]: v}`: replace the value of an existing
key in place, append a fresh key at the end. -/
def setNode : NodeMap → NodeId → VideoNode → NodeMap
  | [], k, v => [(k, v)]
  | (k', v') :: rest, k, v =>
      if k' = k then (k, v) :: rest else (k', v') :: setNode rest k v

def hasKey (m : NodeMap) (k : NodeId) : Bool := (getNode m k).isSome

/-- The initial root node of the `useState` initializer (and of the reset
button, which writes the identical record). -/
def initialRoot : VideoNode :=
  { id := NodeId.root, videoUrl := none, x := 600, y := 100,
    color := COLORS.getD 0 "", parentId := none, children := [], level := 0 }

def initialNodes : NodeMap := [(NodeId.root, initialRoot)]

/-- `calculateTreeLayout` of the source, with an explicit recursion fuel
(the source recursion is unbounded; every use below supplies fuel at
least the subtree height, so the fuel-exhaustion branch is never taken).
Returns the updated map paired with the returned cursor value.

Source:
```
const calculateTreeLayout = (nodeId, nodesMap, startX, level): number => {
  const node = nodesMap[nodeId];
  if (!node) return startX;
  if (node.children.length === 0) {
    node.x = startX; node.y = 100 + level * LEVEL_HEIGHT; node.level = level;
    return startX + NODE_SPACING;
  }
  let currentX = startX;
  const childPositions = [];
  node.children.forEach((childId) => {
    const childEndX = calculateTreeLayout(childId, nodesMap, currentX, level + 1);
    childPositions.push((currentX + childEndX - NODE_SPACING) / 2);
    currentX = childEndX;
  });
  if (childPositions.length > 0) {
    node.x = childPositions.reduce((a, b) => a + b, 0) / childPositions.length;
  } else { node.x = startX; }
  node.y = 100 + level * LEVEL_HEIGHT; node.level = level;
  return currentX;
};
```
The in-place mutations `node.x = ...` become a final `setNode` write of
the entry record with only `x`, `y`, `level` replaced. -/
def calculateTreeLayout : Nat → NodeId → NodeMap → ℚ → Nat → NodeMap × ℚ
  | 0, _, m, startX, _ => (m, startX)
  | fuel + 1, nodeId, m, startX, level =>
      match getNode m nodeId with
      | none => (m, startX)
      | some node =>
          if node.children.length = 0 then
            (setNode m nodeId
              { node with x := startX, y := 100 + (level : ℚ) * LEVEL_HEIGHT, level := level },
             startX + NODE_SPACING)
          else
            let folded := node.children.foldl
              (fun (acc : NodeMap × ℚ × List ℚ) childId =>
                let res := calculateTreeLayout fuel childId acc.1 acc.2.1 (level + 1)
                (res.1, res.2, acc.2.2 ++ [(acc.2.1 + res.2 - NODE_SPACING) / 2]))
              (m, startX, ([] : List ℚ))
            let childPositions := folded.2.2
            let newX :=
              if 0 < childPositions.length then
                childPositions.foldl (· + ·) 0 / (childPositions.length : ℚ)
              else startX
            (setNode folded.1 nodeId
              { node with x := newX, y := 100 + (level : ℚ) * LEVEL_HEIGHT, level := level },
             folded.2.1)

/-- `recalculateLayout` of the source: shallow-copy the map and run the
layout pass from the root with cursor `100` at level `0`.  The fuel
`m.length` dominates the height of every tree reachable by the store's
operations. -/
def recalculateLayout (m : NodeMap) : NodeMap :=
  (calculateTreeLayout m.length NodeId.root m 100 0).1

/-- `addChildNode` of the source.  `now` is the value `Date.now()`
returns during the call.  The source dereferences `nodes[parentId].x`
without a guard, so a missing parent throws a `TypeError`; the embedding
returns `none` in that case. -/
def addChildNode (parentId : NodeId) (now : Nat) (m : NodeMap) : Option NodeMap :=
  match getNode m parentId with
  | none => none
  | some parent =>
      let newId := NodeId.node now
      let colorIndex := m.length % COLORS.length
      let newColor := COLORS.getD colorIndex ""
      let newNode : VideoNode :=
        { id := newId, videoUrl := none, x := parent.x, y := parent.y + LEVEL_HEIGHT,
          color := newColor, parentId := some parentId, children := [],
          level := parent.level + 1 }
      let updated :=
        setNode (setNode m parentId { parent with children := parent.children ++ [newId] })
          newId newNode
      some (recalculateLayout updated)

/-- A user-selected file as seen by `handleFileSelect`: its MIME type
string and the object URL `URL.createObjectURL` would mint for it. -/
structure MediaFile where
  fileType : String
  url : String
deriving DecidableEq, Repr

/-- The check `file.type.startsWith('video/')` of the source:
`String.startsWith` holds exactly when the second string's character
sequence is a prefix of the first's, which is what `List.isPrefixOf`
computes on the underlying character lists (spelled this way so that
concrete instances reduce). -/
def isVideoType (s : String) : Bool := "video/".data.isPrefixOf s.data

/-- `handleFileSelect` of the source.  `file` is
`event.target.files?.[0]`.  When the addressed node is missing and the
type check passes, the source spreads `undefined` and stores an object
lacking the required fields; that state is not representable in the
typed model, so the embedding returns `none` there (no theorem below
depends on that branch). -/
def handleFileSelect (nodeId : NodeId) (file : Option MediaFile) (m : NodeMap) :
    Option NodeMap :=
  match file with
  | none => some m
  | some f =>
      if isVideoType f.fileType then
        match getNode m nodeId with
        | some node => some (setNode m nodeId { node with videoUrl := some f.url })
        | none => none
      else some m

/-- A parsed SVG path description: `M x1 y1 L x2 y2` respectively
`M x1 y1 C cx1 cy1, cx2 cy2, x2 y2`. -/
inductive BranchPath where
  | line (x1 y1 x2 y2 : ℚ)
  | cubic (x1 y1 cx1 cy1 cx2 cy2 x2 y2 : ℚ)
deriving DecidableEq, Repr

/-- `calculateBranchPath` of the source, with the produced path string
represented structurally. -/
def calculateBranchPath (parent child : VideoNode) : BranchPath :=
  let startX := parent.x
  let startY := parent.y + 80
  let endX := child.x
  let endY := child.y - 80
  let midY := (startY + endY) / 2
  if |endX - startX| < 10 then
    BranchPath.line startX startY endX endY
  else
    let controlY1 := startY + (midY - startY) * (3 / 5)
    let controlY2 := endY - (endY - midY) * (3 / 5)
    BranchPath.cubic startX startY startX controlY1 endX controlY2 endX endY

/-- One user-visible tree-store mutation. -/
inductive Op where
  | addChild (parentId : NodeId) (now : Nat) : Op
deriving DecidableEq, Repr

/-- Run one mutation against the React state: if `addChildNode` throws
(missing parent), `setNodes` is never reached and the state is
unchanged. -/
def runOp (m : NodeMap) (op : Op) : NodeMap :=
  match op with
  | Op.addChild p t => (addChildNode p t m).getD m

def runOps (ops : List Op) : NodeMap := ops.foldl runOp initialNodes

/-! ### Basic lemmas about the embedded record operations -/

theorem getNode_setNode_self (m : NodeMap) (k : NodeId) (v : VideoNode) :
    getNode (setNode m k v) k = some v := by
  induction m with
  | nil => simp [setNode, getNode]
  | cons hd tl ih =>
      obtain ⟨k', v'⟩ := hd
      by_cases h : k' = k
      · simp [setNode, getNode, h]
      · simp [setNode, getNode, h, ih]

theorem getNode_setNode_ne (m : NodeMap) (k k' : NodeId) (v : VideoNode) (h : k' ≠ k) :
    getNode (setNode m k v) k' = getNode m k' := by
  have h' : ¬ k = k' := fun hh => h hh.symm
  induction m with
  | nil => simp [setNode, getNode, h']
  | cons hd tl ih =>
      obtain ⟨k'', v''⟩ := hd
      by_cases hk : k'' = k
      · subst hk
        simp [setNode, getNode, h']
      · by_cases hk' : k'' = k'
        · simp [setNode, getNode, hk, hk', h]
        · simp [setNode, getNode, hk, hk', ih]

theorem map_fst_setNode (m : NodeMap) (k : NodeId) (v : VideoNode)
    (h : (getNode m k).isSome) :
    (setNode m k v).map Prod.fst = m.map Prod.fst := by
  induction m with
  | nil => simp [getNode] at h
  | cons hd tl ih =>
      obtain ⟨k', v'⟩ := hd
      by_cases hk : k' = k
      · simp [setNode, hk]
      · simp [getNode, hk] at h
        simp [setNode, hk, ih h]

theorem length_setNode (m : NodeMap) (k : NodeId) (v : VideoNode)
    (h : (getNode m k).isSome) :
    (setNode m k v).length = m.length := by
  have := map_fst_setNode m k v h
  calc (setNode m k v).length = ((setNode m k v).map Prod.fst).length := by
        rw [List.length_map]
    _ = (m.map Prod.fst).length := by rw [this]
    _ = m.length := by rw [List.length_map]

theorem length_setNode_fresh (m : NodeMap) (k : NodeId) (v : VideoNode)
    (h : getNode m k = none) :
    (setNode m k v).length = m.length + 1 := by
  induction m with
  | nil => simp [setNode]
  | cons hd tl ih =>
      obtain ⟨k', v'⟩ := hd
      by_cases hk : k' = k
      · simp [getNode, hk] at h
      · simp [getNode, hk] at h
        simp [setNode, hk, ih h]

/-- The cursor spans of a sibling run: for each child in order, the pair
of the cursor value before and after that child's subtree was laid out
(threading the map exactly as the `forEach` of the source does). -/
def childSpans (fuel : Nat) (l : Nat) : List NodeId → NodeMap → ℚ → List (ℚ × ℚ)
  | [], _, _ => []
  | c :: cs, m, cur =>
      let r := calculateTreeLayout fuel c m cur l
      (cur, r.2) :: childSpans fuel l cs r.1 r.2

/-! ### Connector-curve claims -/

/-- C3: the connector path starts at `(parent.x, parent.y + 80)` and ends
at `(child.x, child.y - 80)`; when the horizontal distance of the anchors
is below the threshold `10` it is the straight segment between them, and
otherwise it is a cubic curve that departs the parent vertically
(first control point directly below the start) and arrives at the child
vertically (second control point directly above the end), with control
ordinates obtained from the vertical midpoint of the anchors pulled
toward the respective endpoint by the fixed damping fraction `2/5`. -/
theorem branchPath_anchors_shape (p c : VideoNode) :
    calculateBranchPath p c =
      if |c.x - p.x| < 10 then
        BranchPath.line p.x (p.y + 80) c.x (c.y - 80)
      else
        BranchPath.cubic p.x (p.y + 80)
          p.x (((p.y + 80) + (c.y - 80)) / 2
                + ((p.y + 80) - ((p.y + 80) + (c.y - 80)) / 2) * (2 / 5))
          c.x (((p.y + 80) + (c.y - 80)) / 2
                + ((c.y - 80) - ((p.y + 80) + (c.y - 80)) / 2) * (2 / 5))
          c.x (c.y - 80) := by
  simp only [calculateBranchPath]
  split
  · rfl
  · congr 1 <;> ring

/-- C9: the produced path depends on the parent and child positions
alone; two invocations with identical positions yield identical paths
regardless of any other node field. -/
theorem branchPath_position_determinism (pa ca pb cb : VideoNode)
    (hpx : pa.x = pb.x) (hpy : pa.y = pb.y) (hcx : ca.x = cb.x) (hcy : ca.y = cb.y) :
    calculateBranchPath pa ca = calculateBranchPath pb cb := by
  simp only [calculateBranchPath, hpx, hpy, hcx, hcy]

theorem branchPath_position_determinism_witness :
    calculateBranchPath
      { id := NodeId.root, videoUrl := none, x := 0, y := 0, color := "a",
        parentId := none, children := [], level := 0 }
      { id := NodeId.node 1, videoUrl := none, x := 50, y := 300, color := "b",
        parentId := some NodeId.root, children := [], level := 1 }
    = calculateBranchPath
      { id := NodeId.node 2, videoUrl := some "u", x := 0, y := 0, color := "c",
        parentId := none, children := [NodeId.node 3], level := 4 }
      { id := NodeId.node 3, videoUrl := some "w", x := 50, y := 300, color := "d",
        parentId := some (NodeId.node 2), children := [], level := 5 } :=
  branchPath_position_determinism _ _ _ _ rfl rfl rfl rfl

/-! ### Identifier generation (C6) -/

/-- C6: two `addChild` calls on the root within the same millisecond
(`Date.now()` returning `0` both times) generate the same id
`node-0`; the second node overwrites the first, the mapping ends with
two entries instead of three, and the root's children list holds the
same id twice — node ids are not pairwise distinct. -/
theorem addChild_id_collision :
    (runOps [Op.addChild NodeId.root 0, Op.addChild NodeId.root 0]).length = 2
    ∧ (getNode (runOps [Op.addChild NodeId.root 0, Op.addChild NodeId.root 0])
          NodeId.root).map (fun v => v.children)
        = some [NodeId.node 0, NodeId.node 0] := by
  decide

/-! ### Missing parent (C7) -/

/-- C7 counterexample: `addChild` addressed to the nonexistent id
`node-99` does not complete: the unguarded access `nodes[parentId].x`
throws, modelled by `addChildNode` returning `none`; there is no
resulting state. -/
theorem addChild_missing_parent_counterexample :
    ¬ ∃ m', addChildNode (NodeId.node 99) 1 initialNodes = some m' := by
  rintro ⟨m', hm⟩
  have h0 : addChildNode (NodeId.node 99) 1 initialNodes = none := by rfl
  rw [h0] at hm
  exact Option.noConfusion hm

/-- C7 amended: for every state and every `parentId` missing from the
mapping, `addChild(parentId)` fails (the dereference of the undefined
parent record throws a `TypeError`); no new state is produced and the
stored mapping is left unchanged. -/
theorem addChild_missing_parent_fails (m : NodeMap) (p : NodeId) (t : Nat)
    (h : getNode m p = none) :
    addChildNode p t m = none ∧ runOp m (Op.addChild p t) = m := by
  refine ⟨?_, ?_⟩
  · simp [addChildNode, h]
  · simp [runOp, addChildNode, h]

theorem addChild_missing_parent_fails_witness :
    getNode initialNodes (NodeId.node 7) = none
    ∧ (addChildNode (NodeId.node 7) 5 initialNodes = none
        ∧ runOp initialNodes (Op.addChild (NodeId.node 7) 5) = initialNodes) :=
  ⟨by decide, addChild_missing_parent_fails initialNodes (NodeId.node 7) 5 (by decide)⟩

/-! ### Attaching media (C8) -/

/-- The behaviour of `handleFileSelect` on an existing node `k` holding
record `v`: a resource failing the video-type check leaves the entire
mapping unchanged, and a passing resource rewrites only the addressed
node's `videoUrl`, leaving every other node, every position and the node
count unchanged. -/
def AttachMediaSpec (m : NodeMap) (k : NodeId) (f : MediaFile) (v : VideoNode) : Prop :=
  (isVideoType f.fileType = false →
      handleFileSelect k (some f) m = some m)
  ∧ (isVideoType f.fileType = true →
      handleFileSelect k (some f) m = some (setNode m k { v with videoUrl := some f.url })
      ∧ (∀ k', k' ≠ k →
          getNode (setNode m k { v with videoUrl := some f.url }) k' = getNode m k')
      ∧ getNode (setNode m k { v with videoUrl := some f.url }) k
          = some { v with videoUrl := some f.url }
      ∧ (setNode m k { v with videoUrl := some f.url }).length = m.length
      ∧ (∀ k' v', getNode (setNode m k { v with videoUrl := some f.url }) k' = some v' →
          ∃ w, getNode m k' = some w ∧ v'.x = w.x ∧ v'.y = w.y))

/-- C8: attaching a resource that fails the video-type check to an
existing node is a complete no-op on the mapping (so its `mediaRef`
stays as it was, no node is mutated, no position changes, the node count
is unchanged), while a passing resource sets `videoUrl` on the addressed
node only and changes no position. -/
theorem attachMedia_videoCheck (m : NodeMap) (k : NodeId) (f : MediaFile) (v : VideoNode)
    (hv : getNode m k = some v) : AttachMediaSpec m k f v := by
  constructor
  · intro hf
    simp [handleFileSelect, hf]
  · intro hf
    refine ⟨by simp [handleFileSelect, hf, hv], fun k' hk' => getNode_setNode_ne m k k' _ hk',
      getNode_setNode_self m k _, length_setNode m k _ (by rw [hv]; rfl), ?_⟩
    intro k' v' h'
    by_cases hk : k' = k
    · subst hk
      rw [getNode_setNode_self] at h'
      obtain rfl : { v with videoUrl := some f.url } = v' := Option.some.inj h'
      exact ⟨v, hv, rfl, rfl⟩
    · rw [getNode_setNode_ne m k k' _ hk] at h'
      exact ⟨v', h', rfl, rfl⟩

theorem attachMedia_videoCheck_witness :
    getNode initialNodes NodeId.root = some initialRoot
    ∧ AttachMediaSpec initialNodes NodeId.root (MediaFile.mk "text/plain" "u") initialRoot :=
  ⟨by decide,
    attachMedia_videoCheck initialNodes NodeId.root (MediaFile.mk "text/plain" "u")
      initialRoot (by decide)⟩

/-! ### The layout pass, per-call characterisation (C1) -/

/-- Laying out a run of sibling subtrees in order: each call receives the
map and cursor left by the previous sibling and returns the final map
and cursor (the `forEach` of the source without the collected list). -/
def layoutRun (fuel : Nat) (l : Nat) : List NodeId → NodeMap → ℚ → NodeMap × ℚ
  | [], m, cur => (m, cur)
  | c :: cs, m, cur =>
      let r := calculateTreeLayout fuel c m cur l
      layoutRun fuel l cs r.1 r.2

theorem childSpans_length (fuel l : Nat) (cs : List NodeId) :
    ∀ (m : NodeMap) (s : ℚ), (childSpans fuel l cs m s).length = cs.length := by
  induction cs with
  | nil => intro m s; rfl
  | cons c cs ih => intro m s; simp [childSpans, ih]

/-- The `forEach` fold of `calculateTreeLayout` equals the sibling run
paired with the collected list of span midpoints. -/
theorem layout_foldl_eq (fuel l : Nat) (cs : List NodeId) :
    ∀ (m : NodeMap) (s : ℚ) (ps : List ℚ),
      cs.foldl
        (fun (acc : NodeMap × ℚ × List ℚ) childId =>
          let res := calculateTreeLayout fuel childId acc.1 acc.2.1 l
          (res.1, res.2, acc.2.2 ++ [(acc.2.1 + res.2 - NODE_SPACING) / 2]))
        (m, s, ps)
      = ((layoutRun fuel l cs m s).1, (layoutRun fuel l cs m s).2,
          ps ++ (childSpans fuel l cs m s).map (fun sp => (sp.1 + sp.2 - NODE_SPACING) / 2)) := by
  induction cs with
  | nil => intro m s ps; simp [layoutRun, childSpans]
  | cons c cs ih =>
      intro m s ps
      simp only [List.foldl_cons, childSpans, layoutRun, ih, List.map_cons]
      simp [List.append_assoc]

/-- The write `calculateTreeLayout` performs on the node it is called on:
`y` is always `100 + level * LEVEL_HEIGHT` with the call's level stored
as the node's depth, and an internal node's `x` is the arithmetic mean,
over its children in order, of the midpoints `(before + after -
NODE_SPACING) / 2` of the cursor interval each child's subtree call
occupied. -/
def LayoutNodeSpec (fuel : Nat) (m : NodeMap) (nodeId : NodeId) (s : ℚ) (l : Nat)
    (v : VideoNode) : Prop :=
  (getNode (calculateTreeLayout (fuel + 1) nodeId m s l).1 nodeId).map
      (fun w => (w.y, w.level)) = some (100 + (l : ℚ) * LEVEL_HEIGHT, l)
  ∧ (v.children ≠ [] →
      getNode (calculateTreeLayout (fuel + 1) nodeId m s l).1 nodeId
        = some { v with
            x := ((childSpans fuel (l + 1) v.children m s).map
                    (fun sp => (sp.1 + sp.2 - NODE_SPACING) / 2)).sum
                  / (v.children.length : ℚ),
            y := 100 + (l : ℚ) * LEVEL_HEIGHT,
            level := l })

/-- C1 amended: in every layout call on an existing node, the node's `y`
becomes `100 + level * LEVEL_HEIGHT` and its depth is set to the call's
level; if the node is internal, its `x` becomes the arithmetic mean of
its children's span midpoints, where the midpoint of a child is
`(cursor before + cursor after - NODE_SPACING) / 2` — the center of the
span the child's subtree occupied with the trailing sibling gap
excluded, not the plain midpoint of the two cursor values. -/
theorem layout_assigns_mean_and_row (fuel : Nat) (m : NodeMap) (nodeId : NodeId)
    (s : ℚ) (l : Nat) (v : VideoNode) (hv : getNode m nodeId = some v) :
    LayoutNodeSpec fuel m nodeId s l v := by
  constructor
  · show (getNode (calculateTreeLayout (fuel + 1) nodeId m s l).1 nodeId).map
      (fun w => (w.y, w.level)) = some (100 + (l : ℚ) * LEVEL_HEIGHT, l)
    rw [calculateTreeLayout]
    rw [hv]
    dsimp only
    by_cases hc : v.children.length = 0
    · rw [if_pos hc, getNode_setNode_self]
      rfl
    · rw [if_neg hc, layout_foldl_eq, getNode_setNode_self]
      rfl
  · intro hne
    have hc : ¬ v.children.length = 0 := by
      simpa using hne
    rw [calculateTreeLayout]
    rw [hv]
    dsimp only
    rw [if_neg hc]
    rw [layout_foldl_eq]
    rw [getNode_setNode_self]
    simp only [List.nil_append]
    congr 1
    have hlen : ((childSpans fuel (l + 1) v.children m s).map
        (fun sp => (sp.1 + sp.2 - NODE_SPACING) / 2)).length = v.children.length := by
      rw [List.length_map, childSpans_length]
    have hpos : 0 < ((childSpans fuel (l + 1) v.children m s).map
        (fun sp => (sp.1 + sp.2 - NODE_SPACING) / 2)).length := by
      rw [hlen]
      exact Nat.pos_of_ne_zero hc
    simp only [if_pos hpos]
    rw [← List.sum_eq_foldl, hlen]

/-- Concrete evaluation: the state after one `addChild('root')` at
instant `0`. -/
theorem runOps_single_eval :
    runOps [Op.addChild NodeId.root 0] =
      [(NodeId.root,
        { id := NodeId.root, videoUrl := none, x := 100, y := 100, color := "#9b87f5",
          parentId := none, children := [NodeId.node 0], level := 0 }),
       (NodeId.node 0,
        { id := NodeId.node 0, videoUrl := none, x := 100, y := 320, color := "#D946EF",
          parentId := some NodeId.root, children := [], level := 1 })] := by
  simp [runOps, runOp, addChildNode, recalculateLayout, calculateTreeLayout, getNode,
    setNode, initialNodes, initialRoot, COLORS, LEVEL_HEIGHT, NODE_SPACING]
  norm_num

/-- Concrete evaluation: the state after `addChild('root')` at instants
`0` and `1`. -/
theorem runOps_pair_eval :
    runOps [Op.addChild NodeId.root 0, Op.addChild NodeId.root 1] =
      [(NodeId.root,
        { id := NodeId.root, videoUrl := none, x := 200, y := 100, color := "#9b87f5",
          parentId := none, children := [NodeId.node 0, NodeId.node 1], level := 0 }),
       (NodeId.node 0,
        { id := NodeId.node 0, videoUrl := none, x := 100, y := 320, color := "#D946EF",
          parentId := some NodeId.root, children := [], level := 1 }),
       (NodeId.node 1,
        { id := NodeId.node 1, videoUrl := none, x := 300, y := 320, color := "#F97316",
          parentId := some NodeId.root, children := [], level := 1 })] := by
  rw [runOps, List.foldl_cons]
  have h1 : runOp initialNodes (Op.addChild NodeId.root 0) = runOps [Op.addChild NodeId.root 0] := by
    simp [runOps]
  rw [h1, runOps_single_eval]
  simp [runOp, addChildNode, recalculateLayout, calculateTreeLayout, getNode, setNode,
    COLORS, LEVEL_HEIGHT, NODE_SPACING]
  norm_num

/-- C1 counterexample: in the layout pass over the two-node tree
`root → node-0` started at the root with cursor `100`, the only child's
subtree occupies the cursor span `(100, 300)`, whose plain midpoint is
`200`; but the pass assigns the root `x = 100`, because the code halves
`before + after - NODE_SPACING`, not `before + after`. -/
theorem layout_x_plain_midpoint_counterexample :
    (getNode (recalculateLayout (runOps [Op.addChild NodeId.root 0])) NodeId.root).map
        (fun v => (v.x, v.children)) = some ((100 : ℚ), [NodeId.node 0])
    ∧ childSpans 1 1 [NodeId.node 0] (runOps [Op.addChild NodeId.root 0]) 100 = [(100, 300)]
    ∧ ((100 : ℚ) + 300) / 2 ≠ 100 := by
  rw [runOps_single_eval]
  refine ⟨?_, ?_, by norm_num⟩
  · simp [recalculateLayout, calculateTreeLayout, getNode, setNode, COLORS,
      LEVEL_HEIGHT, NODE_SPACING]
    norm_num
  · simp [childSpans, calculateTreeLayout, getNode, setNode, COLORS,
      LEVEL_HEIGHT, NODE_SPACING]
    norm_num

theorem layout_assigns_mean_and_row_witness :
    getNode (runOps [Op.addChild NodeId.root 0, Op.addChild NodeId.root 1]) NodeId.root
      = some { id := NodeId.root, videoUrl := none, x := 200, y := 100,
               color := "#9b87f5", parentId := none,
               children := [NodeId.node 0, NodeId.node 1], level := 0 }
    ∧ LayoutNodeSpec 2 (runOps [Op.addChild NodeId.root 0, Op.addChild NodeId.root 1])
        NodeId.root 100 0
        { id := NodeId.root, videoUrl := none, x := 200, y := 100,
          color := "#9b87f5", parentId := none,
          children := [NodeId.node 0, NodeId.node 1], level := 0 } :=
  ⟨by rw [runOps_pair_eval]; rfl,
    layout_assigns_mean_and_row 2 (runOps [Op.addChild NodeId.root 0, Op.addChild NodeId.root 1])
      NodeId.root 100 0 _ (by rw [runOps_pair_eval]; rfl)⟩

/-! ### Frame condition of `addChildNode` (C10) -/

/-- Two node records agree on everything except position (`x`, `y`) and
depth (`level`): the fields the layout pass may rewrite. -/
def sameCore (v w : VideoNode) : Prop :=
  w.id = v.id ∧ w.videoUrl = v.videoUrl ∧ w.color = v.color
  ∧ w.parentId = v.parentId ∧ w.children = v.children

/-- Core agreement between two optional lookups: both absent, or both
present with the same core fields. -/
def coreAgrees : Option VideoNode → Option VideoNode → Prop
  | none, none => True
  | some v, some w => sameCore v w
  | _, _ => False

theorem sameCore_refl (v : VideoNode) : sameCore v v :=
  ⟨rfl, rfl, rfl, rfl, rfl⟩

theorem sameCore_trans {u v w : VideoNode} (h1 : sameCore u v) (h2 : sameCore v w) :
    sameCore u w := by
  obtain ⟨a1, b1, c1, d1, e1⟩ := h1
  obtain ⟨a2, b2, c2, d2, e2⟩ := h2
  exact ⟨a2.trans a1, b2.trans b1, c2.trans c1, d2.trans d1, e2.trans e1⟩

theorem coreAgrees_refl (a : Option VideoNode) : coreAgrees a a := by
  cases a with
  | none => trivial
  | some v => exact sameCore_refl v

theorem coreAgrees_trans {a b c : Option VideoNode}
    (h1 : coreAgrees a b) (h2 : coreAgrees b c) : coreAgrees a c := by
  cases a <;> cases b <;> cases c <;> simp [coreAgrees] at *
  exact sameCore_trans h1 h2

/-- Overwriting a present key with a record of the same core preserves
core agreement at every key. -/
theorem coreAgrees_setNode (m : NodeMap) (nodeId : NodeId) (v w : VideoNode)
    (hv : getNode m nodeId = some v) (hw : sameCore v w) (k : NodeId) :
    coreAgrees (getNode m k) (getNode (setNode m nodeId w) k) := by
  by_cases hk : k = nodeId
  · subst hk
    rw [hv, getNode_setNode_self]
    exact hw
  · rw [getNode_setNode_ne m nodeId k w hk]
    exact coreAgrees_refl _

/-- A run of sibling layout calls preserves core agreement, given that
each single call does. -/
theorem layoutRun_coreAgrees (fuel l : Nat)
    (h : ∀ (c : NodeId) (m' : NodeMap) (cur' : ℚ) (k' : NodeId),
      coreAgrees (getNode m' k') (getNode (calculateTreeLayout fuel c m' cur' l).1 k')) :
    ∀ (cs : List NodeId) (m : NodeMap) (cur : ℚ) (k : NodeId),
      coreAgrees (getNode m k) (getNode (layoutRun fuel l cs m cur).1 k) := by
  intro cs
  induction cs with
  | nil => intro m cur k; exact coreAgrees_refl _
  | cons c cs ih =>
      intro m cur k
      exact coreAgrees_trans (h c m cur k)
        (ih (calculateTreeLayout fuel c m cur l).1 (calculateTreeLayout fuel c m cur l).2 k)

/-- The layout pass touches only `x`, `y` and `level`: at every key the
lookup before and after agrees on id, videoUrl, color, parentId and
children (in particular the key set is unchanged). -/
theorem layout_coreAgrees :
    ∀ (fuel : Nat) (nodeId : NodeId) (m : NodeMap) (s : ℚ) (l : Nat) (k : NodeId),
      coreAgrees (getNode m k) (getNode (calculateTreeLayout fuel nodeId m s l).1 k)
  | 0, _, m, s, l, k => coreAgrees_refl _
  | fuel + 1, nodeId, m, s, l, k => by
      rw [calculateTreeLayout]
      cases hv : getNode m nodeId with
      | none => exact coreAgrees_refl _
      | some v =>
          dsimp only
          by_cases hc : v.children.length = 0
          · rw [if_pos hc]
            dsimp only
            refine coreAgrees_setNode m nodeId v _ hv ?_ k
            exact ⟨rfl, rfl, rfl, rfl, rfl⟩
          · rw [if_neg hc, layout_foldl_eq]
            dsimp only
            have hrun : ∀ k', coreAgrees (getNode m k')
                (getNode (layoutRun fuel (l + 1) v.children m s).1 k') :=
              fun k' => layoutRun_coreAgrees fuel (l + 1)
                (fun c m' cur' k'' => layout_coreAgrees fuel c m' cur' (l + 1) k'')
                v.children m s k'
            have hv' : ∃ w, getNode (layoutRun fuel (l + 1) v.children m s).1 nodeId = some w
                ∧ sameCore v w := by
              have := hrun nodeId
              rw [hv] at this
              cases hw : getNode (layoutRun fuel (l + 1) v.children m s).1 nodeId with
              | none => rw [hw] at this; exact absurd this (by simp [coreAgrees])
              | some w => rw [hw] at this; exact ⟨w, rfl, this⟩
            obtain ⟨w, hw, hcw⟩ := hv'
            refine coreAgrees_trans (hrun k) ?_
            refine coreAgrees_setNode _ nodeId w _ hw ?_ k
            exact ⟨hcw.1.symm, hcw.2.1.symm, hcw.2.2.1.symm, hcw.2.2.2.1.symm,
              hcw.2.2.2.2.symm⟩

/-- What a successful `addChild(p)` generating the fresh id `node-t`
leaves untouched: every pre-existing node keeps its id, color, videoUrl
and parentId; every node other than the parent keeps its children list,
the parent's list gains exactly the new id at the end, and the new node
is registered with empty children, no media and `parentId = p`. -/
def AddChildFrameSpec (m : NodeMap) (p : NodeId) (t : Nat) : Prop :=
  ∃ m', addChildNode p t m = some m'
    ∧ (∀ k v, getNode m k = some v → k ≠ NodeId.node t →
        ∃ v', getNode m' k = some v' ∧ v'.id = v.id ∧ v'.videoUrl = v.videoUrl
          ∧ v'.color = v.color ∧ v'.parentId = v.parentId
          ∧ (k ≠ p → v'.children = v.children)
          ∧ (k = p → v'.children = v.children ++ [NodeId.node t]))
    ∧ (∃ nv, getNode m' (NodeId.node t) = some nv ∧ nv.id = NodeId.node t
        ∧ nv.videoUrl = none ∧ nv.parentId = some p ∧ nv.children = [])

/-- C10 amended: when the parent exists and the generated id `node-t` is
fresh, `addChild` changes only position and depth fields, the parent's
children list, and adds the one new node; every pre-existing node keeps
its id, color, videoUrl, parentId, and (if it is not the parent) its
children list.  (When the generated id collides with an existing node,
that node is overwritten instead — see the counterexample.) -/
theorem addChild_frame (m : NodeMap) (p : NodeId) (t : Nat) (pv : VideoNode)
    (hp : getNode m p = some pv) (hf : getNode m (NodeId.node t) = none) :
    AddChildFrameSpec m p t := by
  have hpt : p ≠ NodeId.node t := fun h => by rw [h, hf] at hp; exact Option.noConfusion hp
  rw [AddChildFrameSpec]
  rw [addChildNode, hp]
  dsimp only
  refine ⟨_, rfl, ?_, ?_⟩
  · intro k v hv hk
    set pv' : VideoNode := { pv with children := pv.children ++ [NodeId.node t] } with hpv'
    set nv : VideoNode :=
      { id := NodeId.node t, videoUrl := none, x := pv.x, y := pv.y + LEVEL_HEIGHT,
        color := COLORS.getD (m.length % COLORS.length) "", parentId := some p,
        children := [], level := pv.level + 1 } with hnv
    have hup : getNode (setNode (setNode m p pv') (NodeId.node t) nv) k
        = if k = p then some pv' else some v := by
      by_cases hkp : k = p
      · subst hkp
        rw [getNode_setNode_ne _ _ _ _ hk, getNode_setNode_self, if_pos rfl]
      · rw [getNode_setNode_ne _ _ _ _ hk, getNode_setNode_ne _ _ _ _ hkp, hv, if_neg hkp]
    have hcore := layout_coreAgrees
      (setNode (setNode m p pv') (NodeId.node t) nv).length NodeId.root
      (setNode (setNode m p pv') (NodeId.node t) nv) 100 0 k
    rw [hup] at hcore
    by_cases hkp : k = p
    · rw [if_pos hkp] at hcore
      cases hres : getNode (recalculateLayout (setNode (setNode m p pv') (NodeId.node t) nv)) k with
      | none =>
          rw [recalculateLayout] at hres
          rw [hres] at hcore
          exact absurd hcore (by simp [coreAgrees])
      | some v' =>
          rw [recalculateLayout] at hres
          rw [hres] at hcore
          subst hkp
          rw [hp] at hv
          obtain rfl : pv = v := Option.some.inj hv
          exact ⟨v', rfl, hcore.1, hcore.2.1, hcore.2.2.1, hcore.2.2.2.1,
            fun hne => absurd rfl hne, fun _ => hcore.2.2.2.2⟩
    · rw [if_neg hkp] at hcore
      cases hres : getNode (recalculateLayout (setNode (setNode m p pv') (NodeId.node t) nv)) k with
      | none =>
          rw [recalculateLayout] at hres
          rw [hres] at hcore
          exact absurd hcore (by simp [coreAgrees])
      | some v' =>
          rw [recalculateLayout] at hres
          rw [hres] at hcore
          exact ⟨v', rfl, hcore.1, hcore.2.1, hcore.2.2.1, hcore.2.2.2.1,
            fun _ => hcore.2.2.2.2, fun hkp' => absurd hkp' hkp⟩
  · set pv' : VideoNode := { pv with children := pv.children ++ [NodeId.node t] } with hpv'
    set nv : VideoNode :=
      { id := NodeId.node t, videoUrl := none, x := pv.x, y := pv.y + LEVEL_HEIGHT,
        color := COLORS.getD (m.length % COLORS.length) "", parentId := some p,
        children := [], level := pv.level + 1 } with hnv
    have hup : getNode (setNode (setNode m p pv') (NodeId.node t) nv) (NodeId.node t)
        = some nv := getNode_setNode_self _ _ _
    have hcore := layout_coreAgrees
      (setNode (setNode m p pv') (NodeId.node t) nv).length NodeId.root
      (setNode (setNode m p pv') (NodeId.node t) nv) 100 0 (NodeId.node t)
    rw [hup] at hcore
    cases hres : getNode (recalculateLayout (setNode (setNode m p pv') (NodeId.node t) nv))
        (NodeId.node t) with
    | none =>
        rw [recalculateLayout] at hres
        rw [hres] at hcore
        exact absurd hcore (by simp [coreAgrees])
    | some nv' =>
        rw [recalculateLayout] at hres
        rw [hres] at hcore
        exact ⟨nv', rfl, hcore.1, hcore.2.1, hcore.2.2.2.1, hcore.2.2.2.2⟩

theorem addChild_frame_witness :
    getNode initialNodes NodeId.root = some initialRoot
    ∧ getNode initialNodes (NodeId.node 0) = none
    ∧ AddChildFrameSpec initialNodes NodeId.root 0 :=
  ⟨by decide, by decide,
    addChild_frame initialNodes NodeId.root 0 initialRoot (by decide) (by decide)⟩

/-- The state used by the C10 counterexample: one child `node-0` added
at instant `0`, then a video attached to that child. -/
def mC10pre : NodeMap :=
  (handleFileSelect (NodeId.node 0) (some (MediaFile.mk "video/mp4" "blob:v"))
    (runOps [Op.addChild NodeId.root 0])).getD []

/-- The state after a further `addChild('root')` whose `Date.now()`
collides with the existing child's creation instant. -/
def mC10post : NodeMap := (addChildNode NodeId.root 0 mC10pre).getD []

theorem mC10pre_eval :
    mC10pre =
      [(NodeId.root,
        { id := NodeId.root, videoUrl := none, x := 100, y := 100, color := "#9b87f5",
          parentId := none, children := [NodeId.node 0], level := 0 }),
       (NodeId.node 0,
        { id := NodeId.node 0, videoUrl := some "blob:v", x := 100, y := 320,
          color := "#D946EF", parentId := some NodeId.root, children := [], level := 1 })] := by
  simp only [mC10pre, runOps_single_eval]
  rfl

theorem mC10post_eval :
    mC10post =
      [(NodeId.root,
        { id := NodeId.root, videoUrl := none, x := 200, y := 100, color := "#9b87f5",
          parentId := none, children := [NodeId.node 0, NodeId.node 0], level := 0 }),
       (NodeId.node 0,
        { id := NodeId.node 0, videoUrl := none, x := 300, y := 320, color := "#F97316",
          parentId := some NodeId.root, children := [], level := 1 })] := by
  simp only [mC10post, mC10pre_eval]
  simp [addChildNode, recalculateLayout, calculateTreeLayout, getNode, setNode, COLORS,
    LEVEL_HEIGHT, NODE_SPACING]
  norm_num

/-- C10 counterexample: in the state `mC10pre` the parent `root` exists
and the pre-existing node `node-0` carries attached media, yet the
`addChild('root')` call whose `Date.now()` returns `0` again completes
and leaves `node-0` with `videoUrl = none`: a pre-existing node did not
keep its `mediaRef` (it was overwritten by the colliding new node). -/
theorem addChild_frame_counterexample :
    (getNode mC10pre NodeId.root).isSome = true
    ∧ (getNode mC10pre (NodeId.node 0)).map (fun v => v.videoUrl) = some (some "blob:v")
    ∧ (addChildNode NodeId.root 0 mC10pre).isSome = true
    ∧ (getNode mC10post (NodeId.node 0)).map (fun v => v.videoUrl) = some none := by
  refine ⟨by rw [mC10pre_eval]; rfl, by rw [mC10pre_eval]; rfl, ?_, by rw [mC10post_eval]; rfl⟩
  rw [mC10pre_eval]
  rfl

/-! ### The two-children scenario (C4) -/

/-- Concrete evaluation of `addChild('root')` at two distinct instants
`t1` and `t2`, with the ids kept symbolic. -/
theorem runOps_symbolic_eval (t1 t2 : Nat) (h : t1 ≠ t2) :
    runOps [Op.addChild NodeId.root t1, Op.addChild NodeId.root t2] =
      [(NodeId.root,
        { id := NodeId.root, videoUrl := none, x := 200, y := 100, color := "#9b87f5",
          parentId := none, children := [NodeId.node t1, NodeId.node t2], level := 0 }),
       (NodeId.node t1,
        { id := NodeId.node t1, videoUrl := none, x := 100, y := 320, color := "#D946EF",
          parentId := some NodeId.root, children := [], level := 1 }),
       (NodeId.node t2,
        { id := NodeId.node t2, videoUrl := none, x := 300, y := 320, color := "#F97316",
          parentId := some NodeId.root, children := [], level := 1 })] := by
  have h21 : t2 ≠ t1 := Ne.symm h
  simp [runOps, runOp, addChildNode, recalculateLayout, calculateTreeLayout, getNode,
    setNode, initialNodes, initialRoot, COLORS, LEVEL_HEIGHT, NODE_SPACING, h, h21]
  norm_num

/-- C4: from the fresh root, two `addChild(root)` calls at distinct
instants produce children `C1`, `C2` with depth 1, colors
`palette[1 mod len]` and `palette[2 mod len]`, the root centred at the
arithmetic mean of the children's x positions, and `C1.x < C2.x`. -/
theorem root_two_children_scenario (t1 t2 : Nat) (h : t1 ≠ t2) :
    ∃ c1 c2 r,
      getNode (runOps [Op.addChild NodeId.root t1, Op.addChild NodeId.root t2])
          (NodeId.node t1) = some c1
      ∧ getNode (runOps [Op.addChild NodeId.root t1, Op.addChild NodeId.root t2])
          (NodeId.node t2) = some c2
      ∧ getNode (runOps [Op.addChild NodeId.root t1, Op.addChild NodeId.root t2])
          NodeId.root = some r
      ∧ c1.level = 1 ∧ c2.level = 1
      ∧ c1.color = COLORS.getD (1 % COLORS.length) ""
      ∧ c2.color = COLORS.getD (2 % COLORS.length) ""
      ∧ r.x = (c1.x + c2.x) / 2
      ∧ c1.x < c2.x := by
  rw [runOps_symbolic_eval t1 t2 h]
  refine ⟨{ id := NodeId.node t1, videoUrl := none, x := 100, y := 320, color := "#D946EF",
            parentId := some NodeId.root, children := [], level := 1 },
          { id := NodeId.node t2, videoUrl := none, x := 300, y := 320, color := "#F97316",
            parentId := some NodeId.root, children := [], level := 1 },
          { id := NodeId.root, videoUrl := none, x := 200, y := 100, color := "#9b87f5",
            parentId := none, children := [NodeId.node t1, NodeId.node t2], level := 0 },
          ?_, ?_, ?_, rfl, rfl, rfl, rfl, by norm_num, by norm_num⟩
  · simp [getNode, h]
  · simp [getNode, h]
  · simp [getNode]

theorem root_two_children_scenario_witness :
    (0 : Nat) ≠ 1
    ∧ (∃ c1 c2 r,
        getNode (runOps [Op.addChild NodeId.root 0, Op.addChild NodeId.root 1])
            (NodeId.node 0) = some c1
        ∧ getNode (runOps [Op.addChild NodeId.root 0, Op.addChild NodeId.root 1])
            (NodeId.node 1) = some c2
        ∧ getNode (runOps [Op.addChild NodeId.root 0, Op.addChild NodeId.root 1])
            NodeId.root = some r
        ∧ c1.level = 1 ∧ c2.level = 1
        ∧ c1.color = COLORS.getD (1 % COLORS.length) ""
        ∧ c2.color = COLORS.getD (2 % COLORS.length) ""
        ∧ r.x = (c1.x + c2.x) / 2
        ∧ c1.x < c2.x) :=
  ⟨by decide, root_two_children_scenario 0 1 (by decide)⟩

/-! ### Tree skeletons

A `LTree` is the shape of a subtree of the store: the id of its root and
the skeletons of its child subtrees, in `children` order.  Reachable
store states are exactly the maps that carry such a skeleton (proved
below); the layout recursion of the source walks this skeleton. -/

inductive LTree where
  | mk (rid : NodeId) (kids : List LTree)

def LTree.rid : LTree → NodeId
  | .mk i _ => i

def LTree.kids : LTree → List LTree
  | .mk _ cs => cs

def LTree.ids : LTree → List NodeId
  | .mk i cs => i :: (cs.attach.map (fun c => LTree.ids c.1)).flatten
termination_by t => sizeOf t
decreasing_by
  simp_wf
  have := List.sizeOf_lt_of_mem c.2
  omega

theorem LTree.ids_mk (i : NodeId) (cs : List LTree) :
    (LTree.mk i cs).ids = i :: (cs.map LTree.ids).flatten := by
  rw [LTree.ids]
  simp [List.attach_map_coe]

def LTree.size : LTree → Nat
  | .mk _ cs => 1 + (cs.attach.map (fun c => LTree.size c.1)).sum
termination_by t => sizeOf t
decreasing_by
  simp_wf
  have := List.sizeOf_lt_of_mem c.2
  omega

theorem LTree.size_mk (i : NodeId) (cs : List LTree) :
    (LTree.mk i cs).size = 1 + (cs.map LTree.size).sum := by
  rw [LTree.size]
  simp [List.attach_map_coe]

/-- Induction over tree skeletons: to prove `P` everywhere it is enough
to prove it at every node assuming it for all child subtrees. -/
theorem LTree.ind {P : LTree → Prop} (h : ∀ i cs, (∀ c ∈ cs, P c) → P (.mk i cs)) :
    ∀ t, P t
  | .mk i cs => h i cs (fun c hc => LTree.ind h c)
termination_by t => sizeOf t
decreasing_by
  simp_wf
  have := List.sizeOf_lt_of_mem hc
  omega

theorem LTree.rid_mem_ids (t : LTree) : t.rid ∈ t.ids := by
  obtain ⟨i, cs⟩ := t
  rw [LTree.ids_mk]
  exact List.mem_cons_self _ _

theorem LTree.mem_ids_of_kid {t : LTree} {i : NodeId} {cs : List LTree}
    (hc : t ∈ cs) {k : NodeId} (hk : k ∈ t.ids) : k ∈ (LTree.mk i cs).ids := by
  rw [LTree.ids_mk]
  exact List.mem_cons_of_mem _ (List.mem_flatten.2 ⟨t.ids, List.mem_map_of_mem _ hc, hk⟩)

theorem LTree.size_pos (t : LTree) : 1 ≤ t.size := by
  obtain ⟨i, cs⟩ := t
  rw [LTree.size_mk]
  omega

theorem LTree.kid_size_le {cs : List LTree} {c : LTree} (hc : c ∈ cs) :
    c.size ≤ (cs.map LTree.size).sum := by
  induction cs with
  | nil => cases hc
  | cons d ds ih =>
      rcases List.mem_cons.1 hc with h | h
      · subst h; simp
      · simp only [List.map_cons, List.sum_cons]
        exact le_add_of_nonneg_of_le (Nat.zero_le _) (ih h)

/-- Order relation used for sibling subtrees: the stored `x` of the
left root is at most that of the right root. -/
def xLe (m : NodeMap) (t u : LTree) : Prop :=
  ∀ vt vu, getNode m t.rid = some vt → getNode m u.rid = some vu → vt.x ≤ vu.x

/-- The map `m` carries the skeleton `t` whose root record has
`parentId = po`: the node exists, its `children` field lists exactly the
roots of the child skeletons in order, and recursively so for each
child subtree (whose records point back at this node). -/
def StoreRep (m : NodeMap) (po : Option NodeId) : LTree → Prop
  | .mk i cs =>
      (∃ v, getNode m i = some v ∧ v.children = cs.map LTree.rid ∧ v.parentId = po)
      ∧ ∀ c ∈ cs.attach, StoreRep m (some i) c.1
termination_by t => sizeOf t
decreasing_by
  simp_wf
  have := List.sizeOf_lt_of_mem c.2
  omega

theorem StoreRep_mk {m : NodeMap} {po : Option NodeId} {i : NodeId} {cs : List LTree} :
    StoreRep m po (.mk i cs) ↔
      (∃ v, getNode m i = some v ∧ v.children = cs.map LTree.rid ∧ v.parentId = po)
      ∧ ∀ c ∈ cs, StoreRep m (some i) c := by
  rw [StoreRep]
  constructor
  · rintro ⟨h1, h2⟩
    exact ⟨h1, fun c hc => h2 ⟨c, hc⟩ (List.mem_attach _ _)⟩
  · rintro ⟨h1, h2⟩
    exact ⟨h1, fun c _ => h2 c.1 c.2⟩

/-- The fully laid-out shape of a subtree rooted at depth `l`: on top of
the structure of `StoreRep`, every record carries the depth assigned by the
pass and the per-depth row ordinate, and sibling subtree roots are
ordered left to right by `x`. -/
def Laid (m : NodeMap) (po : Option NodeId) (l : Nat) : LTree → Prop
  | .mk i cs =>
      (∃ v, getNode m i = some v ∧ v.children = cs.map LTree.rid ∧ v.parentId = po
        ∧ v.level = l ∧ v.y = 100 + (l : ℚ) * LEVEL_HEIGHT)
      ∧ (∀ c ∈ cs.attach, Laid m (some i) (l + 1) c.1)
      ∧ cs.Pairwise (xLe m)
termination_by t => sizeOf t
decreasing_by
  simp_wf
  have := List.sizeOf_lt_of_mem c.2
  omega

theorem Laid_mk {m : NodeMap} {po : Option NodeId} {l : Nat} {i : NodeId} {cs : List LTree} :
    Laid m po l (.mk i cs) ↔
      (∃ v, getNode m i = some v ∧ v.children = cs.map LTree.rid ∧ v.parentId = po
        ∧ v.level = l ∧ v.y = 100 + (l : ℚ) * LEVEL_HEIGHT)
      ∧ (∀ c ∈ cs, Laid m (some i) (l + 1) c)
      ∧ cs.Pairwise (xLe m) := by
  rw [Laid]
  constructor
  · rintro ⟨h1, h2, h3⟩
    exact ⟨h1, fun c hc => h2 ⟨c, hc⟩ (List.mem_attach _ _), h3⟩
  · rintro ⟨h1, h2, h3⟩
    exact ⟨h1, fun c _ => h2 c.1 c.2, h3⟩

/-- `StoreRep` only inspects the map at the subtree's ids. -/
theorem StoreRep_congr :
    ∀ (t : LTree) (mA mB : NodeMap) (po : Option NodeId),
      (∀ k, k ∈ t.ids → getNode mB k = getNode mA k) → StoreRep mA po t → StoreRep mB po t := by
  refine LTree.ind ?_
  intro i cs ih mA mB po hagree hrep
  rw [StoreRep_mk] at hrep ⊢
  obtain ⟨⟨v, hv, hvc, hvp⟩, hkids⟩ := hrep
  refine ⟨⟨v, ?_, hvc, hvp⟩, ?_⟩
  · rw [hagree i (LTree.rid_mem_ids (.mk i cs)), hv]
  · intro c hc
    exact ih c hc mA mB (some i)
      (fun k hk => hagree k (LTree.mem_ids_of_kid hc hk)) (hkids c hc)

/-- `Laid` only inspects the map at the subtree's ids. -/
theorem Laid_congr :
    ∀ (t : LTree) (mA mB : NodeMap) (po : Option NodeId) (l : Nat),
      (∀ k, k ∈ t.ids → getNode mB k = getNode mA k) → Laid mA po l t → Laid mB po l t := by
  refine LTree.ind ?_
  intro i cs ih mA mB po l hagree hlaid
  rw [Laid_mk] at hlaid ⊢
  obtain ⟨⟨v, hv, hvc, hvp, hvl, hvy⟩, hkids, hpw⟩ := hlaid
  refine ⟨⟨v, ?_, hvc, hvp, hvl, hvy⟩, ?_, ?_⟩
  · rw [hagree i (LTree.rid_mem_ids (.mk i cs)), hv]
  · intro c hc
    exact ih c hc mA mB (some i) (l + 1)
      (fun k hk => hagree k (LTree.mem_ids_of_kid hc hk)) (hkids c hc)
  · refine hpw.imp_of_mem ?_
    intro t u ht hu hrel vt vu hvt hvu
    refine hrel vt vu ?_ ?_
    · rw [← hagree t.rid (LTree.mem_ids_of_kid ht (LTree.rid_mem_ids t))]; exact hvt
    · rw [← hagree u.rid (LTree.mem_ids_of_kid hu (LTree.rid_mem_ids u))]; exact hvu

/-- The arithmetic mean of a nonempty list of rationals lies within any
interval containing all entries. -/
theorem mean_mem_bounds (L : List ℚ) (a b : ℚ) (hne : L ≠ [])
    (h : ∀ x ∈ L, a ≤ x ∧ x ≤ b) :
    a ≤ L.sum / (L.length : ℚ) ∧ L.sum / (L.length : ℚ) ≤ b := by
  have hlen : 0 < (L.length : ℚ) := by
    exact_mod_cast List.length_pos.2 hne
  have hsum_le : L.sum ≤ (L.length : ℚ) * b := by
    have := List.sum_le_card_nsmul L b (fun x hx => (h x hx).2)
    simpa [nsmul_eq_mul] using this
  have hle_sum : (L.length : ℚ) * a ≤ L.sum := by
    have := List.card_nsmul_le_sum L a (fun x hx => (h x hx).1)
    simpa [nsmul_eq_mul] using this
  constructor
  · rw [le_div_iff₀ hlen]
    linarith
  · rw [div_le_iff₀ hlen]
    linarith

/-- One unfolding of `calculateTreeLayout` at a leaf record. -/
theorem layout_step_leaf (fuel : Nat) (m : NodeMap) (nodeId : NodeId) (s : ℚ) (l : Nat)
    (v : VideoNode) (hv : getNode m nodeId = some v) (hc : v.children = []) :
    calculateTreeLayout (fuel + 1) nodeId m s l
      = (setNode m nodeId
          { v with x := s, y := 100 + (l : ℚ) * LEVEL_HEIGHT, level := l },
         s + NODE_SPACING) := by
  rw [calculateTreeLayout, hv]
  dsimp only
  rw [if_pos (by rw [hc]; rfl)]

/-- One unfolding of `calculateTreeLayout` at an internal record: the
children are laid out as a run threading map and cursor, and the node is
written with the mean of the collected span midpoints. -/
theorem layout_step_internal (fuel : Nat) (m : NodeMap) (nodeId : NodeId) (s : ℚ) (l : Nat)
    (v : VideoNode) (hv : getNode m nodeId = some v) (hc : v.children ≠ []) :
    calculateTreeLayout (fuel + 1) nodeId m s l
      = (setNode (layoutRun fuel (l + 1) v.children m s).1 nodeId
          { v with
            x := ((childSpans fuel (l + 1) v.children m s).map
                    (fun sp => (sp.1 + sp.2 - NODE_SPACING) / 2)).sum
                  / (v.children.length : ℚ),
            y := 100 + (l : ℚ) * LEVEL_HEIGHT, level := l },
         (layoutRun fuel (l + 1) v.children m s).2) := by
  have hcl : ¬ v.children.length = 0 := by simpa using hc
  rw [calculateTreeLayout, hv]
  dsimp only
  rw [if_neg hcl, layout_foldl_eq]
  have hlen : ((childSpans fuel (l + 1) v.children m s).map
      (fun sp => (sp.1 + sp.2 - NODE_SPACING) / 2)).length = v.children.length := by
    rw [List.length_map, childSpans_length]
  have hpos : 0 < ((List.nil ++ (childSpans fuel (l + 1) v.children m s).map
      (fun sp => (sp.1 + sp.2 - NODE_SPACING) / 2)) : List ℚ).length := by
    rw [List.nil_append, hlen]
    exact Nat.pos_of_ne_zero hcl
  dsimp only
  rw [if_pos hpos]
  simp only [List.nil_append]
  rw [← List.sum_eq_foldl, hlen]

/-- Everything one layout call guarantees on a represented subtree with
enough fuel: it touches only the subtree's ids, advances the cursor by
at least one spacing unit, leaves the subtree fully laid out, and places
the subtree's root inside the cursor span it consumed (with the
trailing gap excluded). -/
def LayoutCallOk (fuel : Nat) (t : LTree) : Prop :=
  ∀ (m : NodeMap) (po : Option NodeId) (s : ℚ) (l : Nat),
    StoreRep m po t → t.ids.Nodup → t.size ≤ fuel →
    (∀ k, k ∉ t.ids → getNode (calculateTreeLayout fuel t.rid m s l).1 k = getNode m k)
    ∧ s + NODE_SPACING ≤ (calculateTreeLayout fuel t.rid m s l).2
    ∧ Laid (calculateTreeLayout fuel t.rid m s l).1 po l t
    ∧ (∃ v, getNode (calculateTreeLayout fuel t.rid m s l).1 t.rid = some v
        ∧ s ≤ v.x ∧ v.x ≤ (calculateTreeLayout fuel t.rid m s l).2 - NODE_SPACING)

/-- Laying out a run of represented sibling subtrees with pairwise
disjoint ids: frame, cursor advance, laid-out children, left-to-right
root ordering, root lower bounds, and bounds on the collected span
midpoints. -/
theorem layoutRun_ok (fuel l : Nat) (i : NodeId) :
    ∀ (cs : List LTree) (m : NodeMap) (cur : ℚ),
      (∀ c ∈ cs, LayoutCallOk fuel c) →
      (∀ c ∈ cs, StoreRep m (some i) c) →
      ((cs.map LTree.ids).flatten).Nodup →
      (cs.map LTree.size).sum ≤ fuel →
      (∀ k, k ∉ (cs.map LTree.ids).flatten →
          getNode (layoutRun fuel (l + 1) (cs.map LTree.rid) m cur).1 k = getNode m k)
      ∧ cur + NODE_SPACING * (cs.length : ℚ)
          ≤ (layoutRun fuel (l + 1) (cs.map LTree.rid) m cur).2
      ∧ (∀ c ∈ cs, Laid (layoutRun fuel (l + 1) (cs.map LTree.rid) m cur).1 (some i) (l + 1) c)
      ∧ cs.Pairwise (xLe (layoutRun fuel (l + 1) (cs.map LTree.rid) m cur).1)
      ∧ (∀ c ∈ cs, ∃ vc,
          getNode (layoutRun fuel (l + 1) (cs.map LTree.rid) m cur).1 c.rid = some vc
          ∧ cur ≤ vc.x)
      ∧ (∀ sp ∈ childSpans fuel (l + 1) (cs.map LTree.rid) m cur,
          cur ≤ (sp.1 + sp.2 - NODE_SPACING) / 2
          ∧ (sp.1 + sp.2 - NODE_SPACING) / 2
              ≤ (layoutRun fuel (l + 1) (cs.map LTree.rid) m cur).2 - NODE_SPACING) := by
  intro cs
  induction cs with
  | nil =>
      intro m cur _ _ _ _
      refine ⟨fun k _ => rfl, by simp [layoutRun], ?_, ?_, ?_, ?_⟩
      · intro c hc; cases hc
      · exact List.Pairwise.nil
      · intro c hc; cases hc
      · intro sp hsp; cases hsp
  | cons c rest ih =>
      intro m cur hcall hrep hnodup hsize
      have hnd := hnodup
      rw [List.map_cons, List.flatten_cons, List.nodup_append] at hnd
      obtain ⟨hndc, hndrest, hdisj⟩ := hnd
      have hccall := hcall c (List.mem_cons_self _ _) m (some i) cur (l + 1)
        (hrep c (List.mem_cons_self _ _)) hndc
        (le_trans (by simp [LTree.kid_size_le, List.mem_cons_self]
          : c.size ≤ ((c :: rest).map LTree.size).sum) hsize)
      obtain ⟨cA, cB, cC, cD⟩ := hccall
      set r1 := calculateTreeLayout fuel c.rid m cur (l + 1) with hr1
      have hrep' : ∀ c' ∈ rest, StoreRep r1.1 (some i) c' := by
        intro c' hc'
        refine StoreRep_congr c' m r1.1 (some i) ?_ (hrep c' (List.mem_cons_of_mem _ hc'))
        intro k hk
        exact cA k (fun hkc => hdisj hkc
          (List.mem_flatten.2 ⟨c'.ids, List.mem_map_of_mem _ hc', hk⟩))
      have hrest := ih r1.1 r1.2
        (fun c' hc' => hcall c' (List.mem_cons_of_mem _ hc'))
        hrep' hndrest
        (le_trans (by simp only [List.map_cons, List.sum_cons]; omega) hsize)
      obtain ⟨rA, rB, rC, rD, rF, rE⟩ := hrest
      have hrunEq : layoutRun fuel (l + 1) ((c :: rest).map LTree.rid) m cur
          = layoutRun fuel (l + 1) (rest.map LTree.rid) r1.1 r1.2 := by
        rw [List.map_cons, layoutRun]
      have hspanEq : childSpans fuel (l + 1) ((c :: rest).map LTree.rid) m cur
          = (cur, r1.2) :: childSpans fuel (l + 1) (rest.map LTree.rid) r1.1 r1.2 := by
        rw [List.map_cons, childSpans]
      have hcurle : r1.2 ≤ (layoutRun fuel (l + 1) (rest.map LTree.rid) r1.1 r1.2).2 := by
        have hlen : (0 : ℚ) ≤ NODE_SPACING * (rest.length : ℚ) := by
          have : (0 : ℚ) ≤ (rest.length : ℚ) := by positivity
          rw [NODE_SPACING]
          positivity
        linarith [rB]
      have hcid_not_rest : c.rid ∉ (rest.map LTree.ids).flatten :=
        fun hmem => hdisj (LTree.rid_mem_ids c) hmem
      have hspacing : (0 : ℚ) < NODE_SPACING := by rw [NODE_SPACING]; norm_num
      rw [hrunEq, hspanEq]
      obtain ⟨vc, hvc, hvclo, hvchi⟩ := cD
      have hvc' : getNode (layoutRun fuel (l + 1) (rest.map LTree.rid) r1.1 r1.2).1 c.rid
          = some vc := by rw [rA c.rid hcid_not_rest]; exact hvc
      refine ⟨?_, ?_, ?_, ?_, ?_, ?_⟩
      · intro k hk
        have hk1 : k ∉ c.ids := fun h =>
          hk (by rw [List.map_cons, List.flatten_cons]; exact List.mem_append_left _ h)
        have hk2 : k ∉ (rest.map LTree.ids).flatten := fun h =>
          hk (by rw [List.map_cons, List.flatten_cons]; exact List.mem_append_right _ h)
        rw [rA k hk2, cA k hk1]
      · have : cur + NODE_SPACING ≤ r1.2 := cB
        have h2 := rB
        simp only [List.length_cons]
        push_cast
        linarith
      · intro c' hc'
        rcases List.mem_cons.1 hc' with h | h
        · subst h
          refine Laid_congr c' r1.1 _ (some i) (l + 1) ?_ cC
          intro k hk
          exact rA k (fun hkr => hdisj hk hkr)
        · exact rC c' h
      · refine List.Pairwise.cons ?_ rD
        intro u hu vt vu hvt hvu
        obtain ⟨vu', hvu', hvu'lo⟩ := rF u hu
        rw [hvc'] at hvt
        rw [hvu'] at hvu
        obtain rfl : vc = vt := Option.some.inj hvt
        obtain rfl : vu' = vu := Option.some.inj hvu
        linarith
      · intro c' hc'
        rcases List.mem_cons.1 hc' with h | h
        · subst h
          exact ⟨vc, hvc', hvclo⟩
        · obtain ⟨vc', hvc'', hlo⟩ := rF c' h
          exact ⟨vc', hvc'', by linarith [cB]⟩
      · intro sp hsp
        rcases List.mem_cons.1 hsp with h | h
        · subst h
          constructor
          · dsimp only
            linarith [cB]
          · dsimp only
            have h1 : (cur + r1.2 - NODE_SPACING) / 2 ≤ r1.2 - NODE_SPACING := by
              linarith [cB]
            linarith
        · obtain ⟨h1, h2⟩ := rE sp h
          exact ⟨by linarith [cB], h2⟩

/-- Main layout lemma: every layout call on a represented subtree with
duplicate-free ids and sufficient fuel satisfies `LayoutCallOk`. -/
theorem layout_ok : ∀ t : LTree, ∀ fuel : Nat, LayoutCallOk fuel t := by
  refine LTree.ind ?_
  intro i cs ih fuel m po s l hrep hnodup hsize
  have h1 : 1 ≤ (LTree.mk i cs).size := LTree.size_pos _
  obtain ⟨f, rfl⟩ : ∃ f, fuel = f + 1 := by
    cases fuel with
    | zero => exact absurd (le_trans h1 hsize) (by omega)
    | succ f => exact ⟨f, rfl⟩
  rw [StoreRep_mk] at hrep
  obtain ⟨⟨v, hv, hvc, hvp⟩, hkids⟩ := hrep
  have hids := LTree.ids_mk i cs
  have hnd := hnodup
  rw [hids, List.nodup_cons] at hnd
  obtain ⟨hinot, hndflat⟩ := hnd
  have hrid : (LTree.mk i cs).rid = i := rfl
  have hspacing : (0 : ℚ) < NODE_SPACING := by rw [NODE_SPACING]; norm_num
  by_cases hcs : cs = []
  · subst hcs
    have hc0 : v.children = [] := by simpa using hvc
    rw [hrid, layout_step_leaf f m i s l v hv hc0]
    dsimp only
    refine ⟨?_, le_refl _, ?_, ?_⟩
    · intro k hk
      have hki : k ≠ i := by
        rw [hids] at hk
        simp only [List.map_nil, List.flatten_nil, List.mem_singleton] at hk
        exact hk
      exact getNode_setNode_ne _ _ _ _ hki
    · rw [Laid_mk]
      exact ⟨⟨_, getNode_setNode_self _ _ _, by simpa using hc0, hvp, rfl, rfl⟩,
        fun c hc => absurd hc (List.not_mem_nil c), List.Pairwise.nil⟩
    · exact ⟨_, getNode_setNode_self _ _ _, le_refl s, by dsimp only; linarith⟩
  · have hcne : v.children ≠ [] := by
      rw [hvc]
      simpa using hcs
    rw [hrid, layout_step_internal f m i s l v hv hcne, hvc]
    have hsum : (cs.map LTree.size).sum ≤ f := by
      have := hsize
      rw [LTree.size_mk] at this
      omega
    obtain ⟨RA, RB, RC, RD, RF, RE⟩ :=
      layoutRun_ok f l i cs m s (fun c hc => ih c hc f) hkids hndflat hsum
    set run := layoutRun f (l + 1) (cs.map LTree.rid) m s with hrundef
    set L := (childSpans f (l + 1) (cs.map LTree.rid) m s).map
      (fun sp => (sp.1 + sp.2 - NODE_SPACING) / 2) with hLdef
    have hLlen : L.length = cs.length := by
      rw [hLdef, List.length_map, childSpans_length, List.length_map]
    have hLne : L ≠ [] := by
      intro hnil
      rw [hnil] at hLlen
      exact hcs (List.length_eq_zero.1 hLlen.symm)
    have hmean := mean_mem_bounds L s (run.2 - NODE_SPACING) hLne
      (by
        intro x hx
        obtain ⟨sp, hsp, rfl⟩ := List.mem_map.1 hx
        exact RE sp hsp)
    have hLcast : ((cs.map LTree.rid).length : ℚ) = (L.length : ℚ) := by
      rw [List.length_map, hLlen]
    rw [hLcast]
    have hclen1 : 1 ≤ cs.length := by
      cases cs with
      | nil => exact absurd rfl hcs
      | cons a b => simp
    refine ⟨?_, ?_, ?_, ?_⟩
    · intro k hk
      have hki : k ≠ i := by
        intro hki
        rw [hids] at hk
        exact hk (hki ▸ List.mem_cons_self _ _)
      have hkf : k ∉ (cs.map LTree.ids).flatten := by
        intro hkf
        rw [hids] at hk
        exact hk (List.mem_cons_of_mem _ hkf)
      rw [getNode_setNode_ne _ _ _ _ hki]
      exact RA k hkf
    · have hc1 : (1 : ℚ) ≤ (cs.length : ℚ) := by exact_mod_cast hclen1
      have := RB
      nlinarith [this, hspacing, hc1]
    · rw [Laid_mk]
      refine ⟨⟨_, getNode_setNode_self _ _ _, rfl, hvp, rfl, rfl⟩, ?_, ?_⟩
      · intro c hc
        refine Laid_congr c run.1 _ (some i) (l + 1) ?_ (RC c hc)
        intro k hk
        have hki : k ≠ i := fun hki =>
          hinot (hki ▸ List.mem_flatten.2 ⟨c.ids, List.mem_map_of_mem _ hc, hk⟩)
        exact getNode_setNode_ne _ _ _ _ hki
      · refine RD.imp_of_mem ?_
        intro t u ht hu hrel vt vu hvt hvu
        have hti : t.rid ≠ i := fun h =>
          hinot (h ▸ List.mem_flatten.2 ⟨t.ids, List.mem_map_of_mem _ ht, LTree.rid_mem_ids t⟩)
        have hui : u.rid ≠ i := fun h =>
          hinot (h ▸ List.mem_flatten.2 ⟨u.ids, List.mem_map_of_mem _ hu, LTree.rid_mem_ids u⟩)
        rw [getNode_setNode_ne _ _ _ _ hti] at hvt
        rw [getNode_setNode_ne _ _ _ _ hui] at hvu
        exact hrel vt vu hvt hvu
    · exact ⟨_, getNode_setNode_self _ _ _, hmean.1, hmean.2⟩

/-! ### Reachable store states -/

/-- States reachable from the initial (reset) state by `addChild` calls
addressed to existing nodes whose `Date.now()` instants produce fresh
ids (the non-colliding executions). -/
inductive ReachableFresh : NodeMap → Prop
  | init : ReachableFresh initialNodes
  | step {m m' : NodeMap} {p : NodeId} {t : Nat} :
      ReachableFresh m → hasKey m p = true → hasKey m (NodeId.node t) = false →
      addChildNode p t m = some m' → ReachableFresh m'

theorem getNode_isSome_iff (m : NodeMap) (k : NodeId) :
    (getNode m k).isSome = true ↔ k ∈ m.map Prod.fst := by
  induction m with
  | nil => simp [getNode]
  | cons hd tl ih =>
      obtain ⟨k', v'⟩ := hd
      by_cases hk : k' = k
      · subst hk
        simp [getNode]
      · simp only [getNode, if_neg hk, List.map_cons, List.mem_cons]
        rw [ih]
        constructor
        · exact fun h => Or.inr h
        · rintro (h | h)
          · exact absurd h.symm hk
          · exact h

theorem layoutRun_map_fst (fuel l : Nat)
    (h : ∀ (c : NodeId) (m' : NodeMap) (cur' : ℚ),
      ((calculateTreeLayout fuel c m' cur' l).1).map Prod.fst = m'.map Prod.fst) :
    ∀ (cs : List NodeId) (m : NodeMap) (cur : ℚ),
      ((layoutRun fuel l cs m cur).1).map Prod.fst = m.map Prod.fst := by
  intro cs
  induction cs with
  | nil => intro m cur; rfl
  | cons c rest ih =>
      intro m cur
      rw [layoutRun]
      rw [ih, h]

/-- The layout pass never changes the underlying key list. -/
theorem layout_map_fst :
    ∀ (fuel : Nat) (nodeId : NodeId) (m : NodeMap) (s : ℚ) (l : Nat),
      ((calculateTreeLayout fuel nodeId m s l).1).map Prod.fst = m.map Prod.fst
  | 0, _, m, s, l => rfl
  | fuel + 1, nodeId, m, s, l => by
      cases hv : getNode m nodeId with
      | none => rw [calculateTreeLayout, hv]
      | some v =>
          by_cases hc : v.children = []
          · rw [layout_step_leaf fuel m nodeId s l v hv hc]
            exact map_fst_setNode m nodeId _ (by rw [hv]; rfl)
          · rw [layout_step_internal fuel m nodeId s l v hv hc]
            have hrun := layoutRun_map_fst fuel (l + 1)
              (fun c m' cur' => layout_map_fst fuel c m' cur' (l + 1)) v.children m s
            dsimp only
            rw [map_fst_setNode _ nodeId _ ?_, hrun]
            rw [getNode_isSome_iff, hrun, ← getNode_isSome_iff, hv]
            rfl

theorem layout_length (fuel : Nat) (nodeId : NodeId) (m : NodeMap) (s : ℚ) (l : Nat) :
    ((calculateTreeLayout fuel nodeId m s l).1).length = m.length := by
  have := layout_map_fst fuel nodeId m s l
  calc ((calculateTreeLayout fuel nodeId m s l).1).length
      = (((calculateTreeLayout fuel nodeId m s l).1).map Prod.fst).length := by
        rw [List.length_map]
    _ = (m.map Prod.fst).length := by rw [this]
    _ = m.length := by rw [List.length_map]

/-- `Laid` is `StoreRep` plus layout facts. -/
theorem StoreRep_of_Laid :
    ∀ (t : LTree) (m : NodeMap) (po : Option NodeId) (l : Nat),
      Laid m po l t → StoreRep m po t := by
  refine LTree.ind ?_
  intro i cs ih m po l hlaid
  rw [Laid_mk] at hlaid
  obtain ⟨⟨v, hv, hvc, hvp, _, _⟩, hkids, _⟩ := hlaid
  rw [StoreRep_mk]
  exact ⟨⟨v, hv, hvc, hvp⟩, fun c hc => ih c hc m (some i) (l + 1) (hkids c hc)⟩

theorem ids_length_eq_size :
    ∀ t : LTree, t.ids.length = t.size := by
  refine LTree.ind ?_
  intro i cs ih
  rw [LTree.ids_mk, LTree.size_mk]
  simp only [List.length_cons]
  rw [List.length_flatten]
  have : (cs.map LTree.ids).map List.length = cs.map LTree.size := by
    rw [List.map_map]
    exact List.map_congr_left (fun c hc => ih c hc)
  rw [this]
  omega

/-- Inserting a fresh leaf under an existing node `p` of a represented
tree: the double update performed by `addChildNode` (append the new id
to the parent's children, register the new record) is again represented,
by a skeleton with the same root, the old ids plus the new one, no
duplicates, and one more node. -/
theorem StoreRep_insert :
    ∀ (T : LTree) (m : NodeMap) (po : Option NodeId) (p nt : NodeId)
      (pv newNode : VideoNode),
      StoreRep m po T → T.ids.Nodup → p ∈ T.ids → nt ∉ T.ids →
      getNode m p = some pv → getNode m nt = none →
      newNode.parentId = some p → newNode.children = [] →
      ∃ T' : LTree, T'.rid = T.rid
        ∧ StoreRep
            (setNode (setNode m p { pv with children := pv.children ++ [nt] }) nt newNode)
            po T'
        ∧ (∀ k, k ∈ T'.ids ↔ k ∈ T.ids ∨ k = nt)
        ∧ T'.ids.Nodup
        ∧ T'.size = T.size + 1 := by
  refine LTree.ind ?_
  intro i cs ih m po p nt pv newNode hrep hnodup hp hnt hpv hfresh hnp hnc
  have hpne : p ≠ nt := fun h => hnt (h ▸ hp)
  set pv' : VideoNode := { pv with children := pv.children ++ [nt] } with hpv'def
  have hget_nt : getNode (setNode (setNode m p pv') nt newNode) nt = some newNode :=
    getNode_setNode_self _ _ _
  have hget_p : getNode (setNode (setNode m p pv') nt newNode) p = some pv' := by
    rw [getNode_setNode_ne _ _ _ _ hpne, getNode_setNode_self]
  have hget_other : ∀ k, k ≠ p → k ≠ nt →
      getNode (setNode (setNode m p pv') nt newNode) k = getNode m k := by
    intro k hkp hknt
    rw [getNode_setNode_ne _ _ _ _ hknt, getNode_setNode_ne _ _ _ _ hkp]
  rw [StoreRep_mk] at hrep
  obtain ⟨⟨v, hv, hvc, hvp⟩, hkids⟩ := hrep
  rw [LTree.ids_mk] at hnodup hp hnt
  rw [List.nodup_cons] at hnodup
  obtain ⟨hinot, hflat⟩ := hnodup
  have hint : i ≠ nt := fun h => hnt (h ▸ List.mem_cons_self _ _)
  by_cases hip : i = p
  · subst hip
    obtain rfl : v = pv := by rw [hv] at hpv; exact Option.some.inj hpv
    refine ⟨LTree.mk i (cs ++ [LTree.mk nt []]), rfl, ?_, ?_, ?_, ?_⟩
    · rw [StoreRep_mk]
      refine ⟨⟨pv', hget_p, ?_, hvp⟩, ?_⟩
      · rw [List.map_append, ← hvc]
        rfl
      · intro c hc
        rcases List.mem_append.1 hc with h | h
        · refine StoreRep_congr c m _ (some i) ?_ (hkids c h)
          intro k hk
          have hkflat : k ∈ (cs.map LTree.ids).flatten :=
            List.mem_flatten.2 ⟨c.ids, List.mem_map_of_mem _ h, hk⟩
          have hkp : k ≠ i := fun hkeq => hinot (hkeq ▸ hkflat)
          have hknt : k ≠ nt := fun hkeq =>
            hnt (hkeq ▸ List.mem_cons_of_mem _ hkflat)
          exact hget_other k hkp hknt
        · obtain rfl : c = LTree.mk nt [] := by simpa using h
          rw [StoreRep_mk]
          refine ⟨⟨newNode, hget_nt, ?_, hnp⟩, fun d hd => absurd hd (List.not_mem_nil d)⟩
          rw [hnc]
          rfl
    · intro k
      rw [LTree.ids_mk, LTree.ids_mk, List.map_append, List.flatten_append]
      simp only [List.map_cons, List.map_nil, List.flatten_cons, List.flatten_nil,
        LTree.ids_mk, List.append_nil, List.mem_cons, List.mem_append,
        List.mem_singleton]
      tauto
    · rw [LTree.ids_mk, List.map_append, List.flatten_append]
      simp only [List.map_cons, List.map_nil, List.flatten_cons, List.flatten_nil,
        LTree.ids_mk, List.append_nil]
      rw [List.nodup_cons]
      constructor
      · intro hmem
        rcases List.mem_append.1 hmem with h | h
        · exact hinot h
        · rw [List.mem_singleton] at h
          exact hint h
      · rw [List.nodup_append]
        refine ⟨hflat, List.nodup_singleton nt, ?_⟩
        intro a ha hb
        rw [List.mem_singleton] at hb
        subst hb
        exact hnt (List.mem_cons_of_mem _ ha)
    · rw [LTree.size_mk, LTree.size_mk, List.map_append, List.sum_append]
      simp only [List.map_cons, List.map_nil, List.sum_cons, List.sum_nil, LTree.size_mk]
      omega
  · have hpflat : p ∈ (cs.map LTree.ids).flatten := by
      rcases List.mem_cons.1 hp with h | h
      · exact absurd h.symm hip
      · exact h
    obtain ⟨lids, hlids, hpin⟩ := List.mem_flatten.1 hpflat
    obtain ⟨c, hcmem, rfl⟩ := List.mem_map.1 hlids
    obtain ⟨l1, l2, rfl⟩ := List.append_of_mem hcmem
    have hflat' := hflat
    rw [List.map_append, List.flatten_append, List.map_cons, List.flatten_cons] at hflat'
    rw [List.nodup_append] at hflat'
    obtain ⟨hnd1, hndc2, hdisj1⟩ := hflat'
    rw [List.nodup_append] at hndc2
    obtain ⟨hndc, hnd2, hdisjc2⟩ := hndc2
    have hntparts : nt ∉ (l1.map LTree.ids).flatten
        ∧ nt ∉ c.ids ∧ nt ∉ (l2.map LTree.ids).flatten := by
      refine ⟨?_, ?_, ?_⟩ <;> intro h <;> refine hnt (List.mem_cons_of_mem _ ?_) <;>
        rw [List.map_append, List.flatten_append, List.map_cons, List.flatten_cons]
      · exact List.mem_append_left _ h
      · exact List.mem_append_right _ (List.mem_append_left _ h)
      · exact List.mem_append_right _ (List.mem_append_right _ h)
    obtain ⟨hnt1, hntc, hnt2⟩ := hntparts
    obtain ⟨c', hc'rid, hc'rep, hc'ids, hc'nodup, hc'size⟩ :=
      ih c hcmem m (some i) p nt pv newNode (hkids c hcmem) hndc hpin hntc hpv
        hfresh hnp hnc
    have hiflat : i ∉ (l1.map LTree.ids).flatten
        ∧ i ∉ c.ids ∧ i ∉ (l2.map LTree.ids).flatten := by
      refine ⟨?_, ?_, ?_⟩ <;> intro h <;> refine hinot ?_ <;>
        rw [List.map_append, List.flatten_append, List.map_cons, List.flatten_cons]
      · exact List.mem_append_left _ h
      · exact List.mem_append_right _ (List.mem_append_left _ h)
      · exact List.mem_append_right _ (List.mem_append_right _ h)
    obtain ⟨hi1, hic, hi2⟩ := hiflat
    have huntouched : ∀ d, (d ∈ l1 ∨ d ∈ l2) → ∀ k, k ∈ d.ids →
        getNode (setNode (setNode m p pv') nt newNode) k = getNode m k := by
      intro d hd k hk
      have hkp : k ≠ p := by
        intro hkeq
        subst hkeq
        rcases hd with h | h
        · exact hdisj1 (List.mem_flatten.2 ⟨d.ids, List.mem_map_of_mem _ h, hk⟩)
            (List.mem_append_left _ hpin)
        · exact hdisjc2 hpin (List.mem_flatten.2 ⟨d.ids, List.mem_map_of_mem _ h, hk⟩)
      have hknt : k ≠ nt := by
        intro hkeq
        subst hkeq
        rcases hd with h | h
        · exact hnt1 (List.mem_flatten.2 ⟨d.ids, List.mem_map_of_mem _ h, hk⟩)
        · exact hnt2 (List.mem_flatten.2 ⟨d.ids, List.mem_map_of_mem _ h, hk⟩)
      exact hget_other k hkp hknt
    refine ⟨LTree.mk i (l1 ++ c' :: l2), rfl, ?_, ?_, ?_, ?_⟩
    · rw [StoreRep_mk]
      refine ⟨⟨v, ?_, ?_, hvp⟩, ?_⟩
      · rw [hget_other i hip hint]
        exact hv
      · rw [hvc, List.map_append, List.map_append, List.map_cons, List.map_cons, hc'rid]
      · intro d hd
        rcases List.mem_append.1 hd with h | h
        · exact StoreRep_congr d m _ (some i) (huntouched d (Or.inl h))
            (hkids d (List.mem_append_left _ h))
        · rcases List.mem_cons.1 h with h' | h'
          · subst h'
            exact hc'rep
          · exact StoreRep_congr d m _ (some i) (huntouched d (Or.inr h'))
              (hkids d (List.mem_append_right _ (List.mem_cons_of_mem _ h')))
    · intro k
      rw [LTree.ids_mk, LTree.ids_mk]
      rw [List.map_append, List.flatten_append, List.map_cons, List.flatten_cons,
        List.map_append, List.flatten_append, List.map_cons, List.flatten_cons]
      simp only [List.mem_cons, List.mem_append, hc'ids k]
      tauto
    · rw [LTree.ids_mk]
      rw [List.map_append, List.flatten_append, List.map_cons, List.flatten_cons]
      rw [List.nodup_cons]
      constructor
      · intro hmem
        rcases List.mem_append.1 hmem with h | h
        · exact hi1 h
        · rcases List.mem_append.1 h with h' | h'
          · rcases (hc'ids i).1 h' with h'' | h''
            · exact hic h''
            · exact hint h''
          · exact hi2 h'
      · rw [List.nodup_append]
        refine ⟨hnd1, ?_, ?_⟩
        · rw [List.nodup_append]
          refine ⟨hc'nodup, hnd2, ?_⟩
          intro a ha hb
          rcases (hc'ids a).1 ha with h | h
          · exact hdisjc2 h hb
          · subst h
            exact hnt2 hb
        · intro a ha hb
          rcases List.mem_append.1 hb with h | h
          · rcases (hc'ids a).1 h with h' | h'
            · exact hdisj1 ha (List.mem_append_left _ h')
            · subst h'
              exact hnt1 ha
          · exact hdisj1 ha (List.mem_append_right _ h)
    · rw [LTree.size_mk, LTree.size_mk]
      rw [List.map_append, List.sum_append, List.map_cons, List.sum_cons,
        List.map_append, List.sum_append, List.map_cons, List.sum_cons]
      omega

/-- A store state is good when it carries a duplicate-free laid-out
skeleton rooted at `root` that covers exactly its keys, with the map
size matching the tree size. -/
def GoodState (m : NodeMap) : Prop :=
  ∃ T : LTree, T.rid = NodeId.root ∧ Laid m none 0 T ∧ T.ids.Nodup
    ∧ (∀ k, (getNode m k).isSome = true ↔ k ∈ T.ids)
    ∧ m.length = T.size

theorem goodState_initial : GoodState initialNodes := by
  refine ⟨LTree.mk NodeId.root [], rfl, ?_, ?_, ?_, ?_⟩
  · rw [Laid_mk]
    refine ⟨⟨initialRoot, rfl, rfl, rfl, rfl, by rw [initialRoot]; norm_num⟩,
      fun c hc => absurd hc (List.not_mem_nil c), List.Pairwise.nil⟩
  · rw [LTree.ids_mk]
    simp
  · intro k
    rw [LTree.ids_mk]
    simp only [List.map_nil, List.flatten_nil, List.mem_singleton]
    constructor
    · intro h
      by_cases hk : NodeId.root = k
      · exact hk.symm
      · rw [initialNodes] at h
        simp [getNode, hk] at h
    · intro h
      subst h
      rfl
  · rw [LTree.size_mk]
    rfl

/-- A successful fresh `addChild` step preserves goodness. -/
theorem goodState_step (m m' : NodeMap) (p : NodeId) (t : Nat)
    (hgs : GoodState m) (hp : hasKey m p = true) (hfr : hasKey m (NodeId.node t) = false)
    (hadd : addChildNode p t m = some m') : GoodState m' := by
  obtain ⟨T, hrid, hlaid, hnodup, hcov, hlen⟩ := hgs
  obtain ⟨pv, hpv⟩ : ∃ pv, getNode m p = some pv := by
    rw [hasKey] at hp
    cases hg : getNode m p with
    | none => rw [hg] at hp; exact absurd hp (by simp)
    | some pv => exact ⟨pv, rfl⟩
  have hfr' : getNode m (NodeId.node t) = none := by
    rw [hasKey] at hfr
    cases hg : getNode m (NodeId.node t) with
    | none => rfl
    | some w => rw [hg] at hfr; exact absurd hfr (by simp)
  rw [addChildNode, hpv] at hadd
  dsimp only at hadd
  obtain rfl := (Option.some.inj hadd).symm
  have hpmem : p ∈ T.ids := (hcov p).1 hp
  have hntmem : NodeId.node t ∉ T.ids := by
    intro h
    have := (hcov (NodeId.node t)).2 h
    rw [hasKey] at hfr
    rw [this] at hfr
    exact Bool.noConfusion hfr
  obtain ⟨T', hrid', hrep', hids', hnodup', hsize'⟩ :=
    StoreRep_insert T m none p (NodeId.node t) pv
      { id := NodeId.node t, videoUrl := none, x := pv.x, y := pv.y + LEVEL_HEIGHT,
        color := COLORS.getD (m.length % COLORS.length) "", parentId := some p,
        children := [], level := pv.level + 1 }
      (StoreRep_of_Laid T m none 0 hlaid) hnodup hpmem hntmem hpv hfr' rfl rfl
  have hpnt : p ≠ NodeId.node t := fun h => hntmem (h ▸ hpmem)
  have hulen : (setNode (setNode m p { pv with children := pv.children ++ [NodeId.node t] })
      (NodeId.node t)
      { id := NodeId.node t, videoUrl := none, x := pv.x, y := pv.y + LEVEL_HEIGHT,
        color := COLORS.getD (m.length % COLORS.length) "", parentId := some p,
        children := [], level := pv.level + 1 }).length = m.length + 1 := by
    rw [length_setNode_fresh _ _ _ (by rw [getNode_setNode_ne _ _ _ _ (Ne.symm hpnt)]; exact hfr'),
      length_setNode _ _ _ (by rw [hpv]; rfl)]
  have hfuel : T'.size ≤ (setNode (setNode m p { pv with children := pv.children ++ [NodeId.node t] })
      (NodeId.node t)
      { id := NodeId.node t, videoUrl := none, x := pv.x, y := pv.y + LEVEL_HEIGHT,
        color := COLORS.getD (m.length % COLORS.length) "", parentId := some p,
        children := [], level := pv.level + 1 }).length := by
    rw [hulen, hsize', ← hlen]
  have hcall := layout_ok T' _ _ none 100 0 hrep' hnodup' hfuel
  obtain ⟨_, _, hlaid', _⟩ := hcall
  have hridroot : T'.rid = NodeId.root := hrid'.trans hrid
  refine ⟨T', hridroot, ?_, hnodup', ?_, ?_⟩
  · rw [recalculateLayout, ← hridroot]
    exact hlaid'
  · intro k
    rw [recalculateLayout, getNode_isSome_iff, layout_map_fst, ← getNode_isSome_iff]
    rw [hids' k]
    by_cases hk : k = NodeId.node t
    · subst hk
      rw [getNode_setNode_self]
      simp
    · rw [getNode_setNode_ne _ _ _ _ hk]
      by_cases hkp : k = p
      · subst hkp
        rw [getNode_setNode_self]
        simp [hpmem]
      · rw [getNode_setNode_ne _ _ _ _ hkp]
        rw [hcov k]
        constructor
        · exact fun h => Or.inl h
        · rintro (h | h)
          · exact h
          · exact absurd h hk
  · rw [recalculateLayout, layout_length, hulen, hlen, hsize']

/-- Every reachable state (with fresh ids) is good. -/
theorem reachable_goodState (m : NodeMap) (h : ReachableFresh m) : GoodState m := by
  induction h with
  | init => exact goodState_initial
  | step _ hp hfr hadd ih => exact goodState_step _ _ _ _ ih hp hfr hadd

/-- Reachability from the root by following `children` links. -/
inductive Reaches (m : NodeMap) : NodeId → Prop
  | root : Reaches m NodeId.root
  | step {p : NodeId} {v : VideoNode} {c : NodeId} :
      Reaches m p → getNode m p = some v → c ∈ v.children → Reaches m c

theorem Laid_root_record {t : LTree} {m : NodeMap} {po : Option NodeId} {l : Nat}
    (h : Laid m po l t) :
    ∃ v, getNode m t.rid = some v ∧ v.children = t.kids.map LTree.rid
      ∧ v.parentId = po ∧ v.level = l ∧ v.y = 100 + (l : ℚ) * LEVEL_HEIGHT := by
  obtain ⟨i, cs⟩ := t
  rw [Laid_mk] at h
  exact h.1

theorem Laid_reaches :
    ∀ (t : LTree) (m : NodeMap) (po : Option NodeId) (l : Nat),
      Laid m po l t → Reaches m t.rid → ∀ k, k ∈ t.ids → Reaches m k := by
  refine LTree.ind ?_
  intro i cs ih m po l hlaid hroot k hk
  rw [Laid_mk] at hlaid
  obtain ⟨⟨v, hv, hvc, _⟩, hkids, _⟩ := hlaid
  rw [LTree.ids_mk, List.mem_cons] at hk
  rcases hk with h | h
  · exact h ▸ hroot
  · obtain ⟨lids, hlids, hkin⟩ := List.mem_flatten.1 h
    obtain ⟨c, hcmem, rfl⟩ := List.mem_map.1 hlids
    have hcreach : Reaches m c.rid :=
      Reaches.step hroot hv (by rw [hvc]; exact List.mem_map_of_mem _ hcmem)
    exact ih c hcmem m (some i) (l + 1) (hkids c hcmem) hcreach k hkin

theorem Laid_parent_level :
    ∀ (t : LTree) (m : NodeMap) (po : Option NodeId) (l : Nat),
      Laid m po l t → ∀ k, k ∈ t.ids → k ≠ t.rid →
      ∃ vk p pvk, getNode m k = some vk ∧ vk.parentId = some p
        ∧ getNode m p = some pvk ∧ vk.level = pvk.level + 1 := by
  refine LTree.ind ?_
  intro i cs ih m po l hlaid k hk hkne
  have hlaid' := hlaid
  rw [Laid_mk] at hlaid'
  obtain ⟨⟨v, hv, hvc, _, hvl, _⟩, hkids, _⟩ := hlaid'
  rw [LTree.ids_mk, List.mem_cons] at hk
  rcases hk with h | h
  · exact absurd h hkne
  · obtain ⟨lids, hlids, hkin⟩ := List.mem_flatten.1 h
    obtain ⟨c, hcmem, rfl⟩ := List.mem_map.1 hlids
    by_cases hkc : k = c.rid
    · subst hkc
      obtain ⟨w, hw, _, hwp, hwl, _⟩ := Laid_root_record (hkids c hcmem)
      exact ⟨w, i, v, hw, hwp, hv, by rw [hwl, hvl]⟩
    · exact ih c hcmem m (some i) (l + 1) (hkids c hcmem) k hkin hkc

theorem pairwise_rel_of_map_split {R : LTree → LTree → Prop} :
    ∀ (cs : List LTree), cs.Pairwise R →
      ∀ (x1 : List NodeId) (a : NodeId) (x2 : List NodeId) (b : NodeId) (x3 : List NodeId),
        cs.map LTree.rid = x1 ++ a :: x2 ++ b :: x3 →
        ∃ ta tb, ta.rid = a ∧ tb.rid = b ∧ R ta tb := by
  intro cs
  induction cs with
  | nil =>
      intro _ x1 a x2 b x3 heq
      rw [List.map_nil] at heq
      exact absurd heq.symm (List.append_ne_nil_of_right_ne_nil _ (List.cons_ne_nil _ _))
  | cons c rest ih =>
      intro hpw x1 a x2 b x3 heq
      rw [List.pairwise_cons] at hpw
      obtain ⟨hcall, hpw'⟩ := hpw
      cases x1 with
      | nil =>
          rw [List.map_cons, List.nil_append] at heq
          have h1 : c.rid = a := (List.cons.inj heq).1
          have h2 : rest.map LTree.rid = x2 ++ b :: x3 := (List.cons.inj heq).2
          have hbmem : b ∈ rest.map LTree.rid := by
            rw [h2]
            exact List.mem_append_right _ (List.mem_cons_self _ _)
          obtain ⟨tb, htbmem, htbrid⟩ := List.mem_map.1 hbmem
          exact ⟨c, tb, h1, htbrid, hcall tb htbmem⟩
      | cons a' x1' =>
          rw [List.map_cons, List.cons_append] at heq
          have h2 : rest.map LTree.rid = x1' ++ a :: x2 ++ b :: x3 := (List.cons.inj heq).2
          obtain ⟨ta, tb, hta, htb, hr⟩ := ih hpw' x1' a x2 b x3 h2
          exact ⟨ta, tb, hta, htb, hr⟩

theorem Laid_sibling_order :
    ∀ (t : LTree) (m : NodeMap) (po : Option NodeId) (l : Nat),
      Laid m po l t → ∀ k vk, k ∈ t.ids → getNode m k = some vk →
      ∀ (x1 : List NodeId) (a : NodeId) (x2 : List NodeId) (b : NodeId) (x3 : List NodeId),
        vk.children = x1 ++ a :: x2 ++ b :: x3 →
        ∀ va vb, getNode m a = some va → getNode m b = some vb → va.x ≤ vb.x := by
  refine LTree.ind ?_
  intro i cs ih m po l hlaid k vk hk hvk x1 a x2 b x3 hsplit va vb hva hvb
  have hlaid' := hlaid
  rw [Laid_mk] at hlaid'
  obtain ⟨⟨v, hv, hvc, _⟩, hkids, hpw⟩ := hlaid'
  by_cases hki : k = i
  · subst hki
    obtain rfl : v = vk := by rw [hv] at hvk; exact Option.some.inj hvk
    obtain ⟨ta, tb, hta, htb, hr⟩ :=
      pairwise_rel_of_map_split cs hpw x1 a x2 b x3 (by rw [← hvc, hsplit])
    exact hr va vb (by rw [hta]; exact hva) (by rw [htb]; exact hvb)
  · rw [LTree.ids_mk, List.mem_cons] at hk
    rcases hk with h | h
    · exact absurd h hki
    · obtain ⟨lids, hlids, hkin⟩ := List.mem_flatten.1 h
      obtain ⟨c, hcmem, rfl⟩ := List.mem_map.1 hlids
      exact ih c hcmem m (some i) (l + 1) (hkids c hcmem) k vk hkin hvk
        x1 a x2 b x3 hsplit va vb hva hvb

/-- The structural tree invariant of the claim: a unique root without a
parent, parent links into the mapping, reachability from `root` by
children links, and depth increasing by one along parent links. -/
def TreeStoreInvariant (m : NodeMap) : Prop :=
  (∃ r, getNode m NodeId.root = some r ∧ r.parentId = none)
  ∧ (∀ k v, getNode m k = some v → v.parentId = none → k = NodeId.root)
  ∧ (∀ k v p, getNode m k = some v → v.parentId = some p → hasKey m p = true)
  ∧ (∀ k, hasKey m k = true → Reaches m k)
  ∧ (∀ k v, getNode m k = some v → k ≠ NodeId.root →
      ∃ p pv, v.parentId = some p ∧ getNode m p = some pv ∧ v.level = pv.level + 1)

/-- C2 amended: after `reset()`, every finite sequence of `addChild`
calls addressed to existing nodes whose generated ids are fresh (no
`Date.now()` collision) yields a single connected acyclic tree rooted at
`root`: exactly one node has no parent, every parent link resolves,
every node is reachable from the root along children links, and depth
grows by one along every parent link. -/
theorem addChild_tree_invariant (m : NodeMap) (h : ReachableFresh m) :
    TreeStoreInvariant m := by
  obtain ⟨T, hrid, hlaid, hnodup, hcov, hlen⟩ := reachable_goodState m h
  have hmem : ∀ {k : NodeId} {v : VideoNode}, getNode m k = some v → k ∈ T.ids := by
    intro k v hv
    exact (hcov k).1 (by rw [hv]; rfl)
  obtain ⟨r, hr, hrc, hrp, hrl, hry⟩ := Laid_root_record hlaid
  rw [hrid] at hr
  refine ⟨⟨r, hr, hrp⟩, ?_, ?_, ?_, ?_⟩
  · intro k v hv hp
    by_contra hkne
    obtain ⟨vk, p', pv', hvk, hvkp, _, _⟩ :=
      Laid_parent_level T m none 0 hlaid k (hmem hv) (by rw [hrid]; exact hkne)
    rw [hv] at hvk
    obtain rfl : v = vk := Option.some.inj hvk
    rw [hp] at hvkp
    exact Option.noConfusion hvkp
  · intro k v p hv hp
    by_cases hk : k = NodeId.root
    · subst hk
      rw [hr] at hv
      obtain rfl : r = v := Option.some.inj hv
      rw [hrp] at hp
      exact Option.noConfusion hp
    · obtain ⟨vk, p', pv', hvk, hvkp, hpv', _⟩ :=
        Laid_parent_level T m none 0 hlaid k (hmem hv) (by rw [hrid]; exact hk)
      rw [hv] at hvk
      obtain rfl : v = vk := Option.some.inj hvk
      rw [hp] at hvkp
      obtain rfl : p = p' := Option.some.inj hvkp
      rw [hasKey, hpv']
      rfl
  · intro k hk
    rw [hasKey] at hk
    have hkmem : k ∈ T.ids := (hcov k).1 hk
    have hroot : Reaches m T.rid := by rw [hrid]; exact Reaches.root
    exact Laid_reaches T m none 0 hlaid hroot k hkmem
  · intro k v hv hkne
    obtain ⟨vk, p, pv, hvk, hvkp, hpv, hlvl⟩ :=
      Laid_parent_level T m none 0 hlaid k (hmem hv) (by rw [hrid]; exact hkne)
    rw [hv] at hvk
    obtain rfl : v = vk := Option.some.inj hvk
    exact ⟨p, pv, hvkp, hpv, hlvl⟩

/-- Concrete evaluation: `addChild('root')` at instant 0 followed by
`addChild('node-0')` whose `Date.now()` also returns 0. -/
theorem runOps_selfparent_eval :
    runOps [Op.addChild NodeId.root 0, Op.addChild (NodeId.node 0) 0] =
      [(NodeId.root,
        { id := NodeId.root, videoUrl := none, x := 100, y := 100, color := "#9b87f5",
          parentId := none, children := [NodeId.node 0], level := 0 }),
       (NodeId.node 0,
        { id := NodeId.node 0, videoUrl := none, x := 100, y := 320, color := "#F97316",
          parentId := some (NodeId.node 0), children := [], level := 1 })] := by
  rw [runOps, List.foldl_cons]
  have h1 : runOp initialNodes (Op.addChild NodeId.root 0)
      = runOps [Op.addChild NodeId.root 0] := by
    simp [runOps]
  rw [h1, runOps_single_eval]
  simp [runOp, addChildNode, recalculateLayout, calculateTreeLayout, getNode, setNode,
    COLORS, LEVEL_HEIGHT, NODE_SPACING]
  norm_num

/-- C2 counterexample: both calls of the trace are addressed to existing
nodes, yet in the resulting mapping the node `node-0` is its own parent
with `depth(node) = depth(parent) + 1` violated (its level is 1, its
parent's level is 1): the id collision of the second call corrupted the
tree. -/
theorem tree_invariant_counterexample :
    hasKey initialNodes NodeId.root = true
    ∧ hasKey (runOps [Op.addChild NodeId.root 0]) (NodeId.node 0) = true
    ∧ ¬ (∀ k v,
        getNode (runOps [Op.addChild NodeId.root 0, Op.addChild (NodeId.node 0) 0]) k
          = some v →
        k ≠ NodeId.root →
        ∃ p pv, v.parentId = some p
          ∧ getNode (runOps [Op.addChild NodeId.root 0, Op.addChild (NodeId.node 0) 0]) p
              = some pv
          ∧ v.level = pv.level + 1) := by
  refine ⟨rfl, ?_, ?_⟩
  · rw [runOps_single_eval]
    rfl
  · intro hcl
    have hv : getNode (runOps [Op.addChild NodeId.root 0, Op.addChild (NodeId.node 0) 0])
        (NodeId.node 0)
        = some { id := NodeId.node 0, videoUrl := none, x := 100, y := 320,
                 color := "#F97316", parentId := some (NodeId.node 0), children := [],
                 level := 1 } := by
      rw [runOps_selfparent_eval]
      rfl
    obtain ⟨p, pv, hp, hpv, hl⟩ := hcl (NodeId.node 0) _ hv (by decide)
    obtain rfl : NodeId.node 0 = p := Option.some.inj hp
    rw [hv] at hpv
    obtain rfl := Option.some.inj hpv
    exact absurd hl (by decide)

/-- C5: in every reachable store state (all of which are freshly laid
out), if `a` precedes `b` in some node's children list then `a`'s
assigned x coordinate is at most `b`'s. -/
theorem layout_siblings_ordered (m : NodeMap) (h : ReachableFresh m) (p : NodeId)
    (pv : VideoNode) (hp : getNode m p = some pv) (x1 : List NodeId) (a : NodeId)
    (x2 : List NodeId) (b : NodeId) (x3 : List NodeId)
    (hsplit : pv.children = x1 ++ a :: x2 ++ b :: x3)
    (va vb : VideoNode) (ha : getNode m a = some va) (hb : getNode m b = some vb) :
    va.x ≤ vb.x := by
  obtain ⟨T, hrid, hlaid, hnodup, hcov, hlen⟩ := reachable_goodState m h
  exact Laid_sibling_order T m none 0 hlaid p pv ((hcov p).1 (by rw [hp]; rfl)) hp
    x1 a x2 b x3 hsplit va vb ha hb

/-- The laid-out state with one child under the root (instant 0). -/
def mOneKid : NodeMap :=
  [(NodeId.root,
    { id := NodeId.root, videoUrl := none, x := 100, y := 100, color := "#9b87f5",
      parentId := none, children := [NodeId.node 0], level := 0 }),
   (NodeId.node 0,
    { id := NodeId.node 0, videoUrl := none, x := 100, y := 320, color := "#D946EF",
      parentId := some NodeId.root, children := [], level := 1 })]

/-- The laid-out state with two children under the root (instants 0, 1). -/
def mTwoKids : NodeMap :=
  [(NodeId.root,
    { id := NodeId.root, videoUrl := none, x := 200, y := 100, color := "#9b87f5",
      parentId := none, children := [NodeId.node 0, NodeId.node 1], level := 0 }),
   (NodeId.node 0,
    { id := NodeId.node 0, videoUrl := none, x := 100, y := 320, color := "#D946EF",
      parentId := some NodeId.root, children := [], level := 1 }),
   (NodeId.node 1,
    { id := NodeId.node 1, videoUrl := none, x := 300, y := 320, color := "#F97316",
      parentId := some NodeId.root, children := [], level := 1 })]

theorem addChild_step1_eval : addChildNode NodeId.root 0 initialNodes = some mOneKid := by
  rw [mOneKid]
  simp [addChildNode, recalculateLayout, calculateTreeLayout, getNode, setNode,
    initialNodes, initialRoot, COLORS, LEVEL_HEIGHT, NODE_SPACING]
  norm_num

theorem addChild_step2_eval : addChildNode NodeId.root 1 mOneKid = some mTwoKids := by
  rw [mOneKid, mTwoKids]
  simp [addChildNode, recalculateLayout, calculateTreeLayout, getNode, setNode,
    COLORS, LEVEL_HEIGHT, NODE_SPACING]
  norm_num

theorem reachable_mTwoKids : ReachableFresh mTwoKids := by
  refine ReachableFresh.step
    (ReachableFresh.step ReachableFresh.init ?_ ?_ addChild_step1_eval)
    ?_ ?_ addChild_step2_eval
  · rfl
  · rfl
  · rw [mOneKid]; rfl
  · rw [mOneKid]; rfl

theorem addChild_tree_invariant_witness :
    ReachableFresh mTwoKids ∧ TreeStoreInvariant mTwoKids :=
  ⟨reachable_mTwoKids, addChild_tree_invariant mTwoKids reachable_mTwoKids⟩

theorem layout_siblings_ordered_witness :
    ReachableFresh mTwoKids
    ∧ (getNode mTwoKids NodeId.root).map (fun v => v.children)
        = some ([] ++ NodeId.node 0 :: [] ++ NodeId.node 1 :: [])
    ∧ (getNode mTwoKids (NodeId.node 0)).map (fun v => v.x) = some 100
    ∧ (getNode mTwoKids (NodeId.node 1)).map (fun v => v.x) = some 300
    ∧ (100 : ℚ) ≤ 300 :=
  ⟨reachable_mTwoKids, rfl, rfl, rfl,
    layout_siblings_ordered mTwoKids reachable_mTwoKids NodeId.root
      { id := NodeId.root, videoUrl := none, x := 200, y := 100, color := "#9b87f5",
        parentId := none, children := [NodeId.node 0, NodeId.node 1], level := 0 }
      rfl [] (NodeId.node 0) [] (NodeId.node 1) [] rfl
      { id := NodeId.node 0, videoUrl := none, x := 100, y := 320, color := "#D946EF",
        parentId := some NodeId.root, children := [], level := 1 }
      { id := NodeId.node 1, videoUrl := none, x := 300, y := 320, color := "#F97316",
        parentId := some NodeId.root, children := [], level := 1 }
      rfl rfl⟩
